import Mathlib

/-!
Verification of the gpsfreak frequency-planner core against its Python
source (src/py/freak).  Shallow embedding: Python Fraction values become
the reduced-pair type Frac below, machine bytes become Nat with explicit
masks, byte arrays become index-to-byte functions, fallible code returns
Option.  Loops that are while-loops in the source are embedded with a
structural fuel argument whose bound is justified at the definition.
-/

/-! ### Exact rationals

Python's fractions.Fraction keeps an integer numerator and a positive
denominator with the gcd divided out.  Frac mirrors that representation;
fracMk mirrors the normalising constructor Fraction(n, d).
-/

/-- A Python Fraction: numerator and positive denominator in lowest terms.
The invariant is the predicate Frac.Wf below; fracMk establishes it. -/
structure Frac where
  num : Int
  den : Nat
  deriving DecidableEq, Repr

/-- The invariant every value built by Fraction's constructor satisfies. -/
def Frac.Wf (f : Frac) : Prop := 0 < f.den ∧ Nat.gcd f.num.natAbs f.den = 1

instance (f : Frac) : Decidable f.Wf := by unfold Frac.Wf; infer_instance

/-- Fraction(n, d): move the sign to the numerator and divide out the gcd.
Python raises ZeroDivisionError for d = 0; that branch returns the junk
value 0/1 and is never reached under the hypotheses used below. -/
def fracMk (n d : Int) : Frac :=
  let n' : Int := if d < 0 then -n else n
  let dn : Nat := d.natAbs
  let g : Nat := Nat.gcd n'.natAbs dn
  if g = 0 then ⟨0, 1⟩ else ⟨Int.ediv n' g, dn / g⟩

/-- Fraction(n) for an integer n. -/
def Frac.ofInt (n : Int) : Frac := ⟨n, 1⟩

def Frac.zero : Frac := ⟨0, 1⟩

def Frac.one : Frac := ⟨1, 1⟩

def Frac.add (a b : Frac) : Frac :=
  fracMk (a.num * b.den + b.num * a.den) ((a.den : Int) * b.den)

def Frac.sub (a b : Frac) : Frac :=
  fracMk (a.num * b.den - b.num * a.den) ((a.den : Int) * b.den)

def Frac.mul (a b : Frac) : Frac :=
  fracMk (a.num * b.num) ((a.den : Int) * b.den)

/-- Fraction division a / b (Python raises for b = 0; fracMk then yields
the junk value 0/1, never reached under the hypotheses used below). -/
def Frac.div (a b : Frac) : Frac :=
  fracMk (a.num * b.den) (b.num * a.den)

def Frac.neg (a : Frac) : Frac := ⟨-a.num, a.den⟩

def Frac.abs (a : Frac) : Frac := ⟨(a.num.natAbs : Int), a.den⟩

/-- The comparison a <= b; denominators are positive so cross-multiplying
is sound. -/
def Frac.ble (a b : Frac) : Bool := a.num * b.den ≤ b.num * a.den

/-- The comparison a < b. -/
def Frac.blt (a b : Frac) : Bool := a.num * b.den < b.num * a.den

/-- floor, as Python math.floor / int division of Fractions: Int.ediv
rounds toward minus infinity for the positive denominator. -/
def Frac.floor (a : Frac) : Int := Int.ediv a.num a.den

/-- ceil of a Fraction. -/
def Frac.ceilI (a : Frac) : Int := -(Int.ediv (-a.num) a.den)

/-- Python floor division a // b of two Fractions (an integer). -/
def Frac.fdiv (a b : Frac) : Int := (a.div b).floor

/-- Python round() on a Fraction: nearest integer, ties to even. -/
def Frac.rnd (a : Frac) : Int :=
  let fl := a.floor
  let twice : Int := 2 * (a.num - fl * a.den)
  if twice < (a.den : Int) then fl
  else if twice > (a.den : Int) then fl + 1
  else if fl % 2 = 0 then fl else fl + 1

/-- Interpretation of a Frac as a Mathlib rational, used for the proofs;
all computation stays on Frac. -/
def Frac.toQ (f : Frac) : ℚ := (f.num : ℚ) / (f.den : ℚ)

/-! ### Register layout and MaskedBytes (src/py/freak/lmk05318b.py)

A bytearray(500) is embedded as an index-to-byte function; indices at or
past DATA_SIZE are never touched by a validated register.  The big-endian
packing of struct.pack and struct.unpack becomes packByte / beBytesVal.
-/

def DATA_SIZE : Nat := 500

/-- The fields of a Register that its validate() method derives from the
physical field list: base byte address, byte span, in-register shift and
bit width.  The name and field list are dropped; they play no part in
extract and insert. -/
structure Register where
  base_address : Nat
  byte_span : Nat
  shift : Nat
  width : Nat
  deriving DecidableEq, Repr

/-- What Register.validate establishes for every register in the table:
positive width, one to eight bytes of span, the field fits the span, a
multi-byte register has no intra-byte shift, and the span stays inside
the 500-byte image. -/
def Register.valid (r : Register) : Prop :=
  0 < r.width ∧ 0 < r.byte_span ∧ r.byte_span ≤ 8 ∧
    r.shift + r.width ≤ 8 * r.byte_span ∧
    (1 < r.byte_span → r.shift = 0) ∧
    r.base_address + r.byte_span ≤ DATA_SIZE

instance (r : Register) : Decidable r.valid := by
  unfold Register.valid; infer_instance

/-- Byte i (0 = most significant) of the span-byte big-endian encoding of
x: struct.pack('>Q', x)[-span:][i]. -/
def packByte (x span i : Nat) : Nat := x >>> (8 * (span - 1 - i)) &&& 255

/-- The value of n big-endian bytes bb base, bb (base+1), ...: what
struct.unpack('>Q', ...) yields after zero padding on the left. -/
def beBytesVal (bb : Nat → Nat) (base : Nat) : Nat → Nat
  | 0 => 0
  | n + 1 => beBytesVal bb base n * 256 + bb (base + n)

/-- Register.extract: take the span bytes at the base address big endian,
shift right and mask to the field width. -/
def Register.extract (r : Register) (bb : Nat → Nat) : Nat :=
  beBytesVal bb r.base_address r.byte_span >>> r.shift &&& (2 ^ r.width - 1)

/-- The MaskedBytes byte image: 500 data bytes and 500 written-bits mask
bytes, both as index-to-byte functions (a fresh instance is the constant
zero function, as bytearray(DATA_SIZE)). -/
structure MaskedBytes where
  data : Nat → Nat
  mask : Nat → Nat

def MaskedBytes.extract (s : MaskedBytes) (r : Register) : Nat := r.extract s.data

def MaskedBytes.extract_mask (s : MaskedBytes) (r : Register) : Nat := r.extract s.mask

/-- MaskedBytes.insert: write value at the register's shift, masked to its
width, big endian over the span, OR-ing the touched bits into the mask.
The Python byte update (d & ~m) | (p & m) on a byte d < 256 equals
(d &&& (255 ^^^ m)) ||| (p &&& m) since m <= 255. -/
def MaskedBytes.insert (s : MaskedBytes) (r : Register) (v : Nat) : MaskedBytes :=
  let value := v <<< r.shift
  let vmask := (2 ^ r.width - 1) <<< r.shift
  { data := fun j =>
      if r.base_address ≤ j ∧ j < r.base_address + r.byte_span then
        (s.data j &&& (255 ^^^ packByte vmask r.byte_span (j - r.base_address))) |||
          (packByte value r.byte_span (j - r.base_address) &&&
            packByte vmask r.byte_span (j - r.base_address))
      else s.data j,
    mask := fun j =>
      if r.base_address ≤ j ∧ j < r.base_address + r.byte_span then
        s.mask j ||| packByte vmask r.byte_span (j - r.base_address)
      else s.mask j }

/-- Whether a data-byte bit position (byte i of the span, bit b of that
byte) lies in the field selected by the register's shift and width. -/
def Register.selects (r : Register) (i b : Nat) : Bool :=
  (((2 ^ r.width - 1) <<< r.shift) >>> (8 * (r.byte_span - 1 - i))).testBit b && b < 8

/-- A byte image as Python holds it: every entry is an actual byte. -/
def ByteFn (f : Nat → Nat) : Prop := ∀ j, f j < 256

/-! ### CRC primitives (src/py/freak/message.py, src/py/freak/crc32.py)

The source builds each 256-entry table with a doubling loop over the
index: entry 0 is 0, entry 1 the polynomial, entry 2i the reduced double
of entry i and entry 2i+1 that value xor the polynomial.  The table is
embedded as a function computing the same recurrence; the fuel argument
is structural recursion depth, and 16 exceeds the 8 halvings any index
below 256 needs. -/

def CRC16_POLY : Nat := 0x1021

def crc16tabAux : Nat → Nat → Nat
  | 0, _ => 0
  | fuel + 1, i =>
    if i = 0 then 0
    else if i = 1 then CRC16_POLY
    else
      let dbl := crc16tabAux fuel (i / 2) <<< 1
      let r := min dbl (dbl ^^^ CRC16_POLY ^^^ 0x10000)
      if i % 2 = 0 then r else r ^^^ CRC16_POLY

/-- CRCTAB of message.py as a function of the index. -/
def crc16tab (i : Nat) : Nat := crc16tabAux 16 i

/-- message.crc16: CRC-16/CCITT, init 0, no final xor. -/
def crc16 (bb : List Nat) : Nat :=
  bb.foldl (fun result b => result <<< 8 &&& 0xff00 ^^^ crc16tab (result >>> 8 ^^^ b)) 0

def CRC32_POLY : Nat := 0x04c11db7

def VERIFY_MAGIC : Nat := 0x38fb2284

def crc32tabAux : Nat → Nat → Nat
  | 0, _ => 0
  | fuel + 1, i =>
    if i = 0 then 0
    else if i = 1 then CRC32_POLY
    else
      let dbl := crc32tabAux fuel (i / 2) <<< 1
      let r := min dbl (dbl ^^^ CRC32_POLY ^^^ 0x100000000)
      if i % 2 = 0 then r else r ^^^ CRC32_POLY

/-- CRCTAB of crc32.py as a function of the index. -/
def crc32tab (i : Nat) : Nat := crc32tabAux 16 i

/-- One step of the crc32 fold: result << 8 & 0xffffff00 ^ CRCTAB[result >> 24 ^ b]. -/
def crc32step (result b : Nat) : Nat :=
  result <<< 8 &&& 0xffffff00 ^^^ crc32tab (result >>> 24 ^^^ b)

/-- crc32.crc32: init 0xffffffff, table fold, final xor 0xffffffff. -/
def crc32 (bb : List Nat) : Nat := bb.foldl crc32step 0xffffffff ^^^ 0xffffffff

/-- struct.pack('>I', x): the four big-endian bytes of a 32-bit value. -/
def pack_be32 (x : Nat) : List Nat :=
  [x >>> 24 &&& 255, x >>> 16 &&& 255, x >>> 8 &&& 255, x &&& 255]

/-- Iterated crc32step on a run of 0xff bytes.  The comparison in the
step keeps the kernel state small when this is evaluated; both branches
are identical. -/
def crcFFAux : Nat → Nat → Nat
  | 0, s => s
  | n + 1, s =>
    if s ≤ 0xffffffff then crcFFAux n (crc32step s 255) else crcFFAux n (crc32step s 255)

/-- The CRC-32 table entry as the xor of the base-two basis entries of
the set bits of the index: the linearity normal form of crc32tab. -/
def tabL (i : Nat) : Nat :=
  ((List.range 8).map fun j => if i.testBit j then crc32tab (2 ^ j) else 0).foldr (fun x y => x ^^^ y) 0

/-- The crc32 fold over the four big-endian bytes of a 32-bit value:
List.foldl crc32step s (pack_be32 x), written out. -/
def crc32feed4 (s x : Nat) : Nat :=
  crc32step (crc32step (crc32step (crc32step s (x >>> 24 &&& 255)) (x >>> 16 &&& 255))
    (x >>> 8 &&& 255)) (x &&& 255)

/-! ### Flash configuration headers (src/py/freak/config.py)

The transport operation message.crc(dev, address, length) asks the device
for the CRC-32 of length flash bytes at address; flash memory is embedded
as an index-to-byte function and the device CRC as crc32 over the peeked
range. -/

def CONFIG_MAGIC : Nat := 0x4b72a6ce

def CONFIG_VERSION : Nat := 1

/-- One slot header as get_headers unpacks it ('<IIII' at the slot
address), together with that address. -/
structure Config where
  address : Nat
  magic : Nat
  version : Nat
  generation : Nat
  length : Nat
  deriving DecidableEq, Repr

/-- Config.is_valid from the source: the magic and a sane length; the
version field is not examined. -/
def Config.is_valid (h : Config) : Bool :=
  h.magic == CONFIG_MAGIC && 20 ≤ h.length && h.length ≤ 2048

/-- Validity as claim C8 words it: magic, version and length all checked. -/
def Config.claim_valid (h : Config) : Bool :=
  h.magic == CONFIG_MAGIC && h.version == CONFIG_VERSION &&
    20 ≤ h.length && h.length ≤ 2048

/-- What the device returns for message.crc(dev, address, length): the
CRC-32 of the length flash bytes starting at address. -/
def deviceCrc (flash : Nat → Nat) (address length : Nat) : Nat :=
  crc32 ((List.range length).map fun i => flash (address + i))

/-- The (generation, address) sort key order of active_header, as Python
compares the tuples. -/
def configLe (a b : Config) : Prop :=
  a.generation < b.generation ∨ (a.generation = b.generation ∧ a.address ≤ b.address)

instance (a b : Config) : Decidable (configLe a b) := by
  unfold configLe; infer_instance

/-- Whether a header's full-length CRC-32 over flash verifies. -/
def crcVerifies (flash : Nat → Nat) (h : Config) : Bool :=
  deviceCrc flash h.address h.length == VERIFY_MAGIC

/-- active_header: filter the valid headers, sort them ascending by
(generation, address), and return the last one whose full-length CRC-32
equals the verify magic, or none.  Python list.sort is a stable ascending
sort; it is embedded as insertion sort, which also returns an ascending
permutation — every property proved below is insensitive to the order of
headers with equal keys. -/
def active_header (flash : Nat → Nat) (headers : List Config) : Option Config :=
  let best := (headers.filter fun h => h.is_valid).insertionSort configLe
  best.reverse.find? (crcVerifies flash)

/-! ### Rational kit (src/py/freak/plan_tools.py) -/

/-- is_multiple_of(a, b): b is truthy (not None and nonzero), b's
numerator divides a's and a's denominator divides b's.  The None case is
handled at each call site. -/
def is_multiple_of (a b : Frac) : Bool :=
  if b.num == 0 then false
  else a.num % b.num == 0 && (b.den : Int) % (a.den : Int) == 0

/-- fract_lcm on two present Fractions: u = a.den * b.num and
v = a.num * b.den are reduced by their gcd and the result is a * u.
The source assert (a * u == b * v) is the first conjunct of the claimed
theorem below. -/
def fract_lcm_core (a b : Frac) : Frac :=
  let u : Int := (a.den : Int) * b.num
  let v : Int := a.num * (b.den : Int)
  let g : Nat := Int.gcd u v
  let u' : Int := Int.ediv u g
  let _v' : Int := Int.ediv v g
  a.mul (Frac.ofInt u')

/-- fract_lcm including the None short-circuits of the source. -/
def fract_lcm : Option Frac → Option Frac → Option Frac
  | none, b => b
  | some a, none => some a
  | some a, some b => some (fract_lcm_core a b)

/-- The while-loop body of do_factor_splitting: try the remaining primes,
then move one more power of the prime from right to left until the prime
no longer divides right or left overflows maxL.  The loop moves at most
one power per iteration, so the fuel 64 covers every right below 2^64;
the enumeration below is run on small inputs only. -/
def fsLoop (doRest : Nat → Nat → List (Nat × Nat)) (prime maxL : Nat) :
    Nat → Nat → Nat → List (Nat × Nat)
  | 0, _, _ => []
  | fuel + 1, left, right =>
    doRest left right ++
      if right % prime ≠ 0 then []
      else
        let left' := left * prime
        if left' > maxL then []
        else fsLoop doRest prime maxL fuel left' (right / prime)

/-- do_factor_splitting of plan_tools.py. -/
def do_factor_splitting (left right maxL maxR : Nat) : List Nat → List (Nat × Nat)
  | [] => if left ≤ maxL ∧ right ≤ maxR then [(left, right)] else []
  | prime :: rest =>
    fsLoop (fun l r => do_factor_splitting l r maxL maxR rest) prime maxL 64 left right

/-- factor_splitting of plan_tools.py: when maxL <= maxR the first
enumeration runs, and the swapped enumeration runs in every case. -/
def factor_splitting (number : Nat) (primes : List Nat) (maxL maxR : Nat) :
    List (Nat × Nat) :=
  (if maxL ≤ maxR then do_factor_splitting 1 number maxL maxR primes else []) ++
    (do_factor_splitting 1 number maxR maxL primes).map fun p => (p.2, p.1)

/-- Index of the output with the stage2 divider. -/
def BIG_DIVIDE : Nat := 5

/-- output_divider of plan_tools.py: a single-stage divider in [2..=256],
or for the big-divide output a two-stage divider preferring an even
second stage (first loop, descending even first stages 512, 510, ..., 12)
and otherwise any second stage (ascending first stages 6..=256). -/
def output_divider (index : Nat) (ratio : Int) : Option (Int × Int) :=
  if 2 ≤ ratio ∧ ratio ≤ 256 then some (ratio, 1)
  else if index ≠ BIG_DIVIDE then none
  else
    match ((List.range 251).map fun k => (512 - 2 * k : Int)).find?
        (fun first => ratio % first == 0 && Int.ediv ratio first ≤ 2 ^ 23) with
    | some first => some (Int.ediv first 2, Int.ediv (ratio * 2) first)
    | none =>
      match ((List.range 251).map fun k => (6 + k : Int)).find?
          (fun first => ratio % first == 0 && Int.ediv ratio first ≤ 2 ^ 24) with
      | some first => some (first, Int.ediv ratio first)
      | none => none

/-! ### Planner constants (src/py/freak/plan_constants.py)

All frequencies are in MHz, as in the source. -/

def MHz : Frac := Frac.one

def kHz : Frac := fracMk 1 1000

def Hz : Frac := fracMk 1 1000000

def REF_FREQ : Frac := (Frac.ofInt 8844582).mul Hz

def BAW_FREQ : Frac := Frac.ofInt 2500

def BAW_LOW : Frac := BAW_FREQ.sub (((BAW_FREQ.mul (Frac.ofInt 50)).div (Frac.ofInt 1000000)))

def BAW_HIGH : Frac := BAW_FREQ.add (((BAW_FREQ.mul (Frac.ofInt 50)).div (Frac.ofInt 1000000)))

def XO_FREQ : Frac := (Frac.ofInt 30720).mul kHz

def PLL2_LOW : Frac := (Frac.ofInt 5340).mul MHz

def PLL2_HIGH : Frac := (Frac.ofInt 6410).mul MHz

def SMALL : Frac := (Frac.ofInt 50).mul kHz

def PLL2_MID : Frac := (PLL2_LOW.add PLL2_HIGH).div (Frac.ofInt 2)

/-- MAX_HALF_RANGE = (PLL2_HIGH - PLL2_LOW) / 2 // SMALL (an integer). -/
def MAX_HALF_RANGE : Int := ((PLL2_HIGH.sub PLL2_LOW).div (Frac.ofInt 2)).fdiv SMALL

/-! ### DPLL planner (src/py/freak/plan_dpll.py) -/

/-- Modelled from the spec: the Target value object consumed by the DPLL
planner.  Its class body is not among the source files (plan_tools.py
holds only the narrower FrequencyTarget), so its fields follow section 3
of the spec: the ordered frequency list, the DPLL reference (default
8 844 582 Hz), the PLL1 phase-detector frequency (default twice the
30.72 MHz XO), and the optional pll1_base / pll2_base constraints.
force_pll2 is as in FrequencyTarget: pll2_base is set and is an integer
multiple of the frequency. -/
structure Target where
  freqs : List Frac
  reference : Frac := REF_FREQ
  pll1_pfd : Frac := (Frac.ofInt 2).mul XO_FREQ
  pll1_base : Option Frac := none
  pll2_base : Option Frac := none

/-- Target.force_pll2 (plan_tools.FrequencyTarget.force_pll2). -/
def Target.force_pll2 (t : Target) (freq : Frac) : Bool :=
  match t.pll2_base with
  | none => false
  | some pb => if pb.num == 0 then false else is_multiple_of pb freq

/-- DPLLPlan with the defaults of the source dataclass. -/
structure DPLLPlan where
  baw : Frac := BAW_FREQ
  baw_target : Frac := BAW_FREQ
  pll1_pfd : Frac := (Frac.ofInt 2).mul XO_FREQ
  reference : Frac := REF_FREQ
  ref_div : Nat := 1
  fb_prediv : Nat := 2
  fb_div : Frac := ((BAW_FREQ.div REF_FREQ).div (Frac.ofInt 2)).div (Frac.ofInt 2)
  deriving DecidableEq, Repr

/-- DPLLPlan.__lt__ against an optional best (None compares greater);
note the source computes both errors against self.baw_target. -/
def DPLLPlan.dlt (a : DPLLPlan) (b : Option DPLLPlan) : Bool :=
  match b with
  | none => true
  | some b =>
    let a_error := (a.baw.sub a.baw_target).abs
    let b_error := (b.baw.sub a.baw_target).abs
    if a_error ≠ b_error then a_error.blt b_error
    else
      let a_delta := (a.baw.sub BAW_FREQ).abs
      let b_delta := (b.baw.sub BAW_FREQ).abs
      if a_delta ≠ b_delta then a_delta.blt b_delta
      else if a.fb_prediv ≠ b.fb_prediv then a.fb_prediv < b.fb_prediv
      else if a.fb_div.den ≠ b.fb_div.den then a.fb_div.den < b.fb_div.den
      else a.fb_div.blt b.fb_div

/-- The continued-fraction loop of Fraction.limit_denominator; fuel is
structural recursion depth.  The convergent denominators q grow at least
as fast as the Fibonacci numbers, so the loop breaks within about
1.5 * log2(max_denominator) + 2 iterations; fuel 200 covers any bound
below 2^130.  The d = 0 and q1 = 0 guards are unreachable: the loop
breaks strictly before the remainder reaches zero because the final
convergent denominator exceeds max_denominator, and q2 = 1 on the first
iteration can not exceed it. -/
def ldLoop (maxd : Nat) (origDen : Nat) :
    Nat → Int → Int → Int → Int → Int → Int → Frac
  | 0, _, _, p1, q1, _, _ => ⟨p1, q1.toNat⟩
  | fuel + 1, p0, q0, p1, q1, n, d =>
    if d = 0 then ⟨p1, q1.toNat⟩
    else
      let a := Int.ediv n d
      let q2 := q0 + a * q1
      if q2 > (maxd : Int) then
        if q1 = 0 then ⟨p1, q1.toNat⟩
        else
          let k := Int.ediv ((maxd : Int) - q0) q1
          if 2 * d * (q0 + k * q1) ≤ (origDen : Int) then ⟨p1, q1.toNat⟩
          else ⟨p0 + k * p1, (q0 + k * q1).toNat⟩
      else ldLoop maxd origDen fuel p1 q1 (p0 + a * p1) q2 d (n - a * d)

/-- Fraction.limit_denominator(max_denominator): the closest fraction
with denominator at most max_denominator (CPython implementation; the
final two-candidate choice uses the equivalent closeness test
2*d*(q0+k*q1) <= denominator, ties to the upper convergent). -/
def Frac.limit_denominator (f : Frac) (maxd : Nat) : Frac :=
  if f.den ≤ maxd then f
  else ldLoop maxd f.den 200 0 1 1 0 f.num (f.den : Int)

/-- The heuristic fractional-part filter shared by the DPLL planning
functions: true when the candidate is to be skipped because it is below
one or its fractional part is within 1/8 of an integer.  The float()
conversions in the low searches are modelled as exact rationals: the
compared quantities sit far from the 1/8 thresholds relative to the
2^-52 relative error of a double. -/
def fbFilter (fb : Frac) : Bool :=
  fb.blt Frac.one || (fb.sub (Frac.ofInt fb.rnd)).abs.blt (fracMk 1 8)

/-- The prediv sweep of baw_plan_for_freq, keeping the best plan and
returning early on an exact plan. -/
def bpffGo (t : Target) (freq ratio : Frac) :
    List Nat → Option DPLLPlan → Option DPLLPlan
  | [], best => best
  | pre_div :: rest, best =>
    let fb_div_target := (ratio.div (Frac.ofInt 2)).div (Frac.ofInt pre_div)
    let fb_div := fb_div_target.limit_denominator (2 ^ 40 - 1)
    if fbFilter fb_div then bpffGo t freq ratio rest best
    else
      let plan : DPLLPlan :=
        { baw := ((t.reference.mul (Frac.ofInt 2)).mul (Frac.ofInt pre_div)).mul fb_div
          baw_target := freq
          pll1_pfd := t.pll1_pfd
          reference := t.reference
          fb_prediv := pre_div
          fb_div := fb_div }
      if plan.baw = freq then some plan
      else bpffGo t freq ratio rest (if plan.dlt best then some plan else best)

/-- The prediv range 2..=17 of the sweeps. -/
def predivList : List Nat := (List.range 16).map fun k => 2 + k

/-- baw_plan_for_freq; none models the assert that a best plan exists. -/
def baw_plan_for_freq (t : Target) (freq : Frac) : Option DPLLPlan :=
  bpffGo t freq (freq.div t.reference) predivList none

/-- The integers from lo to hi inclusive, in order (Python range(lo, hi+1)). -/
def intRange (lo hi : Int) : List Int :=
  (List.range (hi + 1 - lo).toNat).map fun (k : Nat) => lo + (k : Int)

/-- sym_range: multipliers of f landing in [low, high], at most limit,
even offsets from the mid-point multiplier before odd ones and smaller
offsets first, as the source generator yields them. -/
def sym_range (f low high : Frac) (limit : Int) : List Int :=
  let mid := (low.add high).div (Frac.ofInt 2)
  let offset := mid.fdiv f
  let start := (low.div f).ceilI
  let stop := min limit (high.fdiv f)
  if start > stop then []
  else
    let initial := max 0 (max (offset - stop) (start - offset))
    let parity := (offset + initial) % 2
    let final := max (stop - offset) (offset - start)
    [parity, 1 - parity].flatMap fun p =>
      (List.range (((1 + final) - (initial + p) + 1).ediv 2).toNat).flatMap fun j =>
        let i := initial + p + 2 * (j : Int)
        (if start ≤ offset - i ∧ offset - i ≤ stop then [offset - i] else []) ++
          (if i ≠ 0 ∧ start ≤ offset + i ∧ offset + i ≤ stop then [offset + i] else [])

/-- baw_plan_low_exact: first triple (stage1, prediv, stage2) in loop
order whose fb_div denominator fits below 2^40; the filter tests the
nominal estimate BAW_FREQ / fb_base. -/
def baw_plan_low_exact (t : Target) (freq : Frac) : Option DPLLPlan :=
  ((List.range 251).map fun k => 6 + k).findSome? fun stage1 =>
    let base := freq.mul (Frac.ofInt (Int.ofNat stage1))
    predivList.findSome? fun prediv =>
      let post_fb_div := (t.reference.mul (Frac.ofInt 2)).mul (Frac.ofInt (Int.ofNat prediv))
      let fb_base := base.div post_fb_div
      if fbFilter (BAW_FREQ.div fb_base) then none
      else
        (sym_range base BAW_LOW BAW_HIGH (2 ^ 24)).findSome? fun stage2 =>
          let fb_div := fb_base.mul (Frac.ofInt stage2)
          if fb_div.den < 2 ^ 40 then
            some { baw := post_fb_div.mul fb_div
                   baw_target := post_fb_div.mul fb_div
                   reference := t.reference
                   fb_prediv := prediv
                   fb_div := fb_div }
          else none

/-- baw_plan_low_approx: sweep (prediv, m) over a clamped window, keep the
candidate minimising |baw/m - freq| among those with a usable big-divide
output divider.  The error accumulator starts at BAW_HIGH. -/
def baw_plan_low_approx (t : Target) (freq : Frac) : Option DPLLPlan :=
  let half_range : Int := 1000
  let start0 := (BAW_LOW.div freq).ceilI
  let stop0 := BAW_HIGH.fdiv freq
  let mid := BAW_FREQ.fdiv freq
  let stop := min (min stop0 (mid + half_range)) (2 ^ 32)
  let start := max start0 (stop - 2 * half_range)
  let step := fun (st : Option DPLLPlan × Frac) (pm : Nat × Int) =>
    let prediv := pm.1
    let m := pm.2
    let ref_mult := (t.reference.mul (Frac.ofInt 2)).mul (Frac.ofInt (Int.ofNat prediv))
    let ratio_target := freq.div ref_mult
    if fbFilter (BAW_FREQ.div ref_mult) then st
    else
      let fb_div := (ratio_target.mul (Frac.ofInt m)).limit_denominator (2 ^ 40)
      let baw := fb_div.mul ref_mult
      let e := ((baw.div (Frac.ofInt m)).sub freq).abs
      if e.blt st.2 && (output_divider 5 m).isSome then
        (some { baw := baw
                baw_target := freq.mul (Frac.ofInt m)
                reference := t.reference
                fb_prediv := prediv
                fb_div := fb_div }, e)
      else st
  (((predivList.flatMap fun prediv => (intRange start stop).map fun m => (prediv, m)).foldl
    step ((none : Option DPLLPlan), BAW_HIGH))).1

/-- baw_plan_low: nothing below BAW_LOW / 2^32, else the exact brute
force, else the approximate one. -/
def baw_plan_low (t : Target) (freq : Frac) : Option DPLLPlan :=
  if freq.blt (BAW_LOW.div (Frac.ofInt (2 ^ 32))) then none
  else
    match baw_plan_low_exact t freq with
    | some plan => some plan
    | none => baw_plan_low_approx t freq

/-- single_baw_mult: the unique multiplier putting freq into the BAW
window, when there is exactly one. -/
def single_baw_mult (freq : Frac) : Option Int :=
  let m := (BAW_LOW.div freq).ceilI
  if m = BAW_HIGH.fdiv freq then some m else none

/-- Increment the vote count for a BAW frequency, keeping insertion
order, as the Python dict does. -/
def bumpCount (counts : List (Frac × Nat)) (key : Frac) : List (Frac × Nat) :=
  match counts.find? (fun kv => kv.1 == key) with
  | some _ => counts.map fun kv => if kv.1 == key then (kv.1, kv.2 + 1) else kv
  | none => counts ++ [(key, 1)]

/-- The first loop of dpll_plan: either an early return of the default
plan (some frequency divides the default BAW with a usable divider), or
the vote table. -/
def dpllCounts (t : Target) (defaultPlan : DPLLPlan) :
    List (Nat × Frac) → List (Frac × Nat) → Sum DPLLPlan (List (Frac × Nat))
  | [], counts => Sum.inr counts
  | (i, f) :: rest, counts =>
    if f.num == 0 then dpllCounts t defaultPlan rest counts
    else if (match t.pll2_base with
             | some pb => !(pb.num == 0) && is_multiple_of pb f
             | none => false) then dpllCounts t defaultPlan rest counts
    else if is_multiple_of defaultPlan.baw f &&
        (output_divider i (defaultPlan.baw.fdiv f)).isSome then
      Sum.inl defaultPlan
    else
      match single_baw_mult f with
      | some m =>
        if (output_divider i m).isSome then
          dpllCounts t defaultPlan rest (bumpCount counts (f.mul (Frac.ofInt m)))
        else dpllCounts t defaultPlan rest counts
      | none => dpllCounts t defaultPlan rest counts

/-- Descending sort order on (count, freq) pairs for possible.sort(reverse=True). -/
def possibleGe (a b : Nat × Frac) : Prop :=
  b.1 < a.1 ∨ (b.1 = a.1 ∧ b.2.ble a.2)

instance (a b : Nat × Frac) : Decidable (possibleGe a b) := by
  unfold possibleGe; infer_instance

/-- The final sweep of dpll_plan over the sorted candidates; none models
a failed assert inside baw_plan_for_freq or an empty sweep. -/
def dpllSweep (t : Target) : List (Nat × Frac) → Option DPLLPlan → Option DPLLPlan
  | [], best => best
  | (_, freq) :: rest, best =>
    match baw_plan_for_freq t freq with
    | none => none
    | some plan => dpllSweep t rest (if plan.dlt best then some plan else best)

/-- dpll_plan; none models any failed assert on the way. -/
def dpll_plan (t : Target) : Option DPLLPlan :=
  match t.pll1_base with
  | some base =>
    if base.num == 0 then dpllPlanMain t else
    match single_baw_mult base with
    | none => none
    | some m => baw_plan_for_freq t (base.mul (Frac.ofInt m))
  | none => dpllPlanMain t
where
  dpllPlanMain (t : Target) : Option DPLLPlan :=
    match baw_plan_for_freq t BAW_FREQ with
    | none => none
    | some default0 =>
      let defaultPlan := { default0 with baw_target := default0.baw }
      match dpllCounts t defaultPlan t.freqs.enum [] with
      | Sum.inl early => some early
      | Sum.inr counts =>
        let bd := t.freqs.getD BIG_DIVIDE Frac.zero
        let counts :=
          if !(bd.num == 0) && !t.force_pll2 bd then
            let m1 := (BAW_LOW.div bd).ceilI
            let m2 := BAW_HIGH.fdiv bd
            if m1 < m2 then
              counts.map fun kv =>
                if is_multiple_of kv.1 bd && (output_divider BIG_DIVIDE (kv.1.fdiv bd)).isSome
                then (kv.1, kv.2 + 1) else kv
            else counts
          else counts
        if counts.isEmpty then
          if !(bd.num == 0) && !t.force_pll2 bd && bd.ble (BAW_HIGH.sub BAW_LOW) then
            match baw_plan_low t bd with
            | some plan => some plan
            | none => some defaultPlan
          else some defaultPlan
        else
          let possible := (counts.map fun kv => (kv.2, kv.1)).insertionSort possibleGe
          dpllSweep t possible none

/-! ### PLL2 candidate enumeration (src/py/freak/plan_pll2.py)

pll2_plan iterates mult over range(ceil(PLL2_LOW / pll2_lcm),
floor(PLL2_HIGH / pll2_lcm) + 1) and tries pll2_freq = mult * pll2_lcm;
no clamping is applied to that range. -/

/-- The multipliers pll2_plan tries for a given LCM. -/
def pll2_plan_mults (pll2_lcm : Frac) : List Int :=
  intRange ((PLL2_LOW.div pll2_lcm).ceilI) (PLL2_HIGH.fdiv pll2_lcm)

/-- The candidate PLL2 frequencies pll2_plan evaluates. -/
def pll2_plan_candidates (pll2_lcm : Frac) : List Frac :=
  (pll2_plan_mults pll2_lcm).map fun m => (Frac.ofInt m).mul pll2_lcm

/-! ### Concrete inputs used by the per-claim evaluations -/

/-- The target frequency of the C3 evaluation, in MHz: a rational chosen
so that the only multiples of it inside the BAW window are 12499 and
12500, the exact low-BAW search finds no fb_div with denominator below
2^40 (for stage1 * stage2 = 12500 and prediv 2 the denominator is
exactly 2^40), and the approximate search represents it exactly at
multiplier 12500 with denominator exactly 2^40. -/
def dpllBoundaryFreq : Frac := fracMk (77700000000001 * 4422291) (2 ^ 45 * 5 ^ 11)

/-- A Target asking only for dpllBoundaryFreq on the big-divide output. -/
def dpllBoundaryTarget : Target :=
  { freqs := [Frac.zero, Frac.zero, Frac.zero, Frac.zero, Frac.zero, dpllBoundaryFreq] }

/-- The target frequency of the C5 counterexample: 33/8 times the
reference.  fb_prediv 2 realises it exactly with fb_div 33/32, whose
fractional part 1/32 lies inside the 1/8 filter zone, and every other
prediv gives an fb_div below one; so every candidate is filtered and
the sweep finds nothing at all. -/
def filterTrapFreq : Frac := REF_FREQ.mul (fracMk 33 8)

/-- A Target asking only for filterTrapFreq. -/
def filterTrapTarget : Target := { freqs := [filterTrapFreq] }

/-- Twenty flash bytes whose CRC-32 equals the verify magic: sixteen
zero bytes followed by the big-endian CRC-32 of those sixteen bytes.
Everything outside the slot reads as erased flash (0xff). -/
def flashDemo : Nat → Nat := fun j =>
  ([0, 0, 0, 0, 0, 0, 0, 0, 0, 0, 0, 0, 0, 0, 0, 0] ++ pack_be32 2865945911).getD j 255

/-- A slot header with the correct magic, version 7, generation 5 and
length 20, sitting at address 0 over flashDemo. -/
def headerDemo : Config :=
  { address := 0, magic := 0x4b72a6ce, version := 7, generation := 5, length := 20 }

/-- A second valid header at address 2048 with a higher generation whose
slot CRC does not verify over flashDemo (the bytes there are all 0xff). -/
def headerStale : Config :=
  { address := 2048, magic := 0x4b72a6ce, version := 1, generation := 9, length := 20 }

/-! ### Lemmas: the Frac to Mathlib-rational bridge -/

theorem ediv_natAbs_of_dvd (N : Int) (G : Nat) (hpos : 0 < G) (hdv : ((G : Nat) : Int) ∣ N) :
    (Int.ediv N G).natAbs = N.natAbs / G := by
  obtain ⟨k, hk⟩ := hdv
  have hne : ((G : Nat) : Int) ≠ 0 := by exact_mod_cast hpos.ne'
  subst hk
  have h1 : Int.ediv (((G : Nat) : Int) * k) G = k := Int.mul_ediv_cancel_left k hne
  rw [h1, Int.natAbs_mul, Int.natAbs_ofNat, Nat.mul_div_cancel_left _ hpos]

theorem fracMk_eq (n d : Int) (hd : d ≠ 0) :
    ∃ g : Nat, 0 < g ∧
      (fracMk n d).num * g = (if d < 0 then -n else n) ∧
      ((fracMk n d).den : Nat) * g = d.natAbs ∧ (fracMk n d).Wf := by
  unfold fracMk
  generalize (if d < 0 then -n else n) = N
  have hdn : d.natAbs ≠ 0 := Int.natAbs_ne_zero.mpr hd
  have hg : Nat.gcd N.natAbs d.natAbs ≠ 0 := fun h => hdn (Nat.eq_zero_of_gcd_eq_zero_right h)
  have hGpos : 0 < Nat.gcd N.natAbs d.natAbs := Nat.pos_of_ne_zero hg
  have hdvN : ((Nat.gcd N.natAbs d.natAbs : Nat) : Int) ∣ N := Int.gcd_dvd_left
  have hdvD : Nat.gcd N.natAbs d.natAbs ∣ d.natAbs := Nat.gcd_dvd_right _ _
  refine ⟨Nat.gcd N.natAbs d.natAbs, hGpos, ?_⟩
  simp only [hg, if_false]
  refine ⟨?_, ?_, ?_, ?_⟩
  · exact Int.ediv_mul_cancel hdvN
  · exact Nat.div_mul_cancel hdvD
  · exact Nat.div_pos (Nat.le_of_dvd (Nat.pos_of_ne_zero hdn) hdvD) hGpos
  · show Nat.gcd (Int.ediv N _).natAbs _ = 1
    rw [ediv_natAbs_of_dvd N _ hGpos hdvN]
    exact Nat.coprime_div_gcd_div_gcd hGpos

theorem fracMk_wf (n d : Int) (hd : d ≠ 0) : (fracMk n d).Wf :=
  (fracMk_eq n d hd).choose_spec.2.2.2

theorem fracMk_den_pos (n d : Int) (hd : d ≠ 0) : 0 < (fracMk n d).den :=
  (fracMk_wf n d hd).1

theorem toQ_fracMk (n d : Int) (hd : d ≠ 0) :
    (fracMk n d).toQ = (n : ℚ) / (d : ℚ) := by
  obtain ⟨g, hgpos, hnum, hden, hwf⟩ := fracMk_eq n d hd
  have hgq : (g : ℚ) ≠ 0 := by exact_mod_cast Nat.pos_iff_ne_zero.mp hgpos
  have hdq : (d : ℚ) ≠ 0 := by exact_mod_cast hd
  have hdenq : ((fracMk n d).den : ℚ) ≠ 0 := by
    exact_mod_cast Nat.pos_iff_ne_zero.mp hwf.1
  unfold Frac.toQ
  rw [div_eq_div_iff hdenq hdq]
  refine mul_right_cancel₀ hgq ?_
  have h1 : ((fracMk n d).num : ℚ) * g = ((if d < 0 then -n else n : Int) : ℚ) := by
    exact_mod_cast congrArg (fun z : Int => (z : ℚ)) hnum
  have h2 : (((fracMk n d).den : Nat) : ℚ) * g = (d.natAbs : ℚ) := by
    exact_mod_cast congrArg (fun z : Nat => (z : ℚ)) hden
  calc ((fracMk n d).num : ℚ) * d * g = ((fracMk n d).num : ℚ) * g * d := by ring
    _ = (n : ℚ) * ((((fracMk n d).den : Nat) : ℚ) * g) := by
        rw [h1, h2]
        rcases lt_or_ge d 0 with hneg | hpos
        · have hdqneg : (d : ℚ) < 0 := by exact_mod_cast hneg
          have habs : ((d.natAbs : Nat) : ℚ) = -(d : ℚ) := by
            rw [Int.cast_natAbs, abs_of_neg hneg]
            push_cast
            ring
          rw [if_pos hneg, habs]
          push_cast
          ring
        · have hdqpos : (0 : ℚ) ≤ (d : ℚ) := by exact_mod_cast hpos
          have habs : ((d.natAbs : Nat) : ℚ) = (d : ℚ) := by
            rw [Int.cast_natAbs, abs_of_nonneg hpos]
          rw [if_neg (not_lt.mpr hpos), habs]
    _ = (n : ℚ) * (((fracMk n d).den : Nat) : ℚ) * g := by ring

theorem toQ_ofInt (n : Int) : (Frac.ofInt n).toQ = (n : ℚ) := by
  unfold Frac.ofInt Frac.toQ
  norm_num

theorem ofInt_wf (n : Int) : (Frac.ofInt n).Wf :=
  ⟨Nat.one_pos, Nat.gcd_one_right _⟩

theorem den_cast_ne (a : Frac) (ha : 0 < a.den) : ((a.den : Nat) : ℚ) ≠ 0 := by
  exact_mod_cast Nat.pos_iff_ne_zero.mp ha

theorem toQ_add (a b : Frac) (ha : 0 < a.den) (hb : 0 < b.den) :
    (a.add b).toQ = a.toQ + b.toQ := by
  unfold Frac.add
  have hane : ((a.den : Nat) : Int) ≠ 0 := by exact_mod_cast Nat.pos_iff_ne_zero.mp ha
  have hbne : ((b.den : Nat) : Int) ≠ 0 := by exact_mod_cast Nat.pos_iff_ne_zero.mp hb
  rw [toQ_fracMk _ _ (mul_ne_zero hane hbne)]
  unfold Frac.toQ
  have haq := den_cast_ne a ha
  have hbq := den_cast_ne b hb
  field_simp
  try push_cast
  try ring

theorem toQ_sub (a b : Frac) (ha : 0 < a.den) (hb : 0 < b.den) :
    (a.sub b).toQ = a.toQ - b.toQ := by
  unfold Frac.sub
  have hane : ((a.den : Nat) : Int) ≠ 0 := by exact_mod_cast Nat.pos_iff_ne_zero.mp ha
  have hbne : ((b.den : Nat) : Int) ≠ 0 := by exact_mod_cast Nat.pos_iff_ne_zero.mp hb
  rw [toQ_fracMk _ _ (mul_ne_zero hane hbne)]
  unfold Frac.toQ
  have haq := den_cast_ne a ha
  have hbq := den_cast_ne b hb
  field_simp
  try push_cast
  try ring

theorem toQ_mul (a b : Frac) (ha : 0 < a.den) (hb : 0 < b.den) :
    (a.mul b).toQ = a.toQ * b.toQ := by
  unfold Frac.mul
  have hane : ((a.den : Nat) : Int) ≠ 0 := by exact_mod_cast Nat.pos_iff_ne_zero.mp ha
  have hbne : ((b.den : Nat) : Int) ≠ 0 := by exact_mod_cast Nat.pos_iff_ne_zero.mp hb
  rw [toQ_fracMk _ _ (mul_ne_zero hane hbne)]
  unfold Frac.toQ
  have haq := den_cast_ne a ha
  have hbq := den_cast_ne b hb
  field_simp
  try push_cast
  try ring

theorem toQ_div (a b : Frac) (ha : 0 < a.den) (hb : 0 < b.den) (hbn : b.num ≠ 0) :
    (a.div b).toQ = a.toQ / b.toQ := by
  unfold Frac.div
  have hane : ((a.den : Nat) : Int) ≠ 0 := by exact_mod_cast Nat.pos_iff_ne_zero.mp ha
  rw [toQ_fracMk _ _ (mul_ne_zero hbn hane)]
  unfold Frac.toQ
  have haq := den_cast_ne a ha
  have hbq := den_cast_ne b hb
  have hbnq : ((b.num : Int) : ℚ) ≠ 0 := by exact_mod_cast hbn
  push_cast
  field_simp
  try ring
  try exact Or.inl trivial

theorem toQ_num_zero (a : Frac) (ha : 0 < a.den) : a.toQ = 0 ↔ a.num = 0 := by
  unfold Frac.toQ
  rw [div_eq_zero_iff]
  constructor
  · rintro (h | h)
    · exact_mod_cast h
    · exact absurd h (den_cast_ne a ha)
  · intro h
    left
    exact_mod_cast h

theorem toQ_pos (a : Frac) (ha : 0 < a.den) : 0 < a.toQ ↔ 0 < a.num := by
  unfold Frac.toQ
  rw [div_pos_iff]
  have hdq : (0 : ℚ) < ((a.den : Nat) : ℚ) := by exact_mod_cast ha
  constructor
  · rintro (⟨h, _⟩ | ⟨_, h⟩)
    · exact_mod_cast h
    · exact absurd h (not_lt.mpr hdq.le)
  · intro h
    exact Or.inl ⟨by exact_mod_cast h, hdq⟩

theorem ble_iff (a b : Frac) (ha : 0 < a.den) (hb : 0 < b.den) :
    a.ble b = true ↔ a.toQ ≤ b.toQ := by
  unfold Frac.ble Frac.toQ
  have haq : (0 : ℚ) < ((a.den : Nat) : ℚ) := by exact_mod_cast ha
  have hbq : (0 : ℚ) < ((b.den : Nat) : ℚ) := by exact_mod_cast hb
  rw [div_le_div_iff haq hbq, decide_eq_true_eq]
  constructor
  · intro h
    exact_mod_cast h
  · intro h
    exact_mod_cast h

theorem blt_iff (a b : Frac) (ha : 0 < a.den) (hb : 0 < b.den) :
    a.blt b = true ↔ a.toQ < b.toQ := by
  unfold Frac.blt Frac.toQ
  have haq : (0 : ℚ) < ((a.den : Nat) : ℚ) := by exact_mod_cast ha
  have hbq : (0 : ℚ) < ((b.den : Nat) : ℚ) := by exact_mod_cast hb
  rw [div_lt_div_iff haq hbq, decide_eq_true_eq]
  constructor
  · intro h
    exact_mod_cast h
  · intro h
    exact_mod_cast h

theorem toQ_inj (a b : Frac) (ha : a.Wf) (hb : b.Wf) (h : a.toQ = b.toQ) : a = b := by
  unfold Frac.toQ at h
  have haq := den_cast_ne a ha.1
  have hbq := den_cast_ne b hb.1
  rw [div_eq_div_iff haq hbq] at h
  have hcross : a.num * (b.den : Int) = b.num * (a.den : Int) := by exact_mod_cast h
  have hd1 : ((a.den : Nat) : Int) ∣ ((b.den : Nat) : Int) := by
    have h1 : ((a.den : Nat) : Int) ∣ b.num * (a.den : Int) := dvd_mul_left _ _
    rw [← hcross] at h1
    have hcop : IsCoprime a.num ((a.den : Nat) : Int) := by
      rw [Int.isCoprime_iff_gcd_eq_one]
      exact ha.2
    exact (hcop.symm.dvd_of_dvd_mul_left h1)
  have hd2 : ((b.den : Nat) : Int) ∣ ((a.den : Nat) : Int) := by
    have h1 : ((b.den : Nat) : Int) ∣ a.num * (b.den : Int) := dvd_mul_left _ _
    rw [hcross] at h1
    have hcop : IsCoprime b.num ((b.den : Nat) : Int) := by
      rw [Int.isCoprime_iff_gcd_eq_one]
      exact hb.2
    exact (hcop.symm.dvd_of_dvd_mul_left h1)
  have hden : a.den = b.den := by
    have h3 : ((a.den : Nat) : Int) = ((b.den : Nat) : Int) :=
      Int.dvd_antisymm (Int.ofNat_nonneg a.den) (Int.ofNat_nonneg b.den) hd1 hd2
    exact_mod_cast h3
  have hnum : a.num = b.num := by
    rw [hden] at hcross
    exact mul_right_cancel₀
      (show ((b.den : Nat) : Int) ≠ 0 by exact_mod_cast Nat.pos_iff_ne_zero.mp hb.1) hcross
  cases a; cases b
  simp_all

theorem add_wf (a b : Frac) (ha : 0 < a.den) (hb : 0 < b.den) : (a.add b).Wf :=
  fracMk_wf _ _ (mul_ne_zero (by exact_mod_cast Nat.pos_iff_ne_zero.mp ha)
    (by exact_mod_cast Nat.pos_iff_ne_zero.mp hb))

theorem sub_wf (a b : Frac) (ha : 0 < a.den) (hb : 0 < b.den) : (a.sub b).Wf :=
  fracMk_wf _ _ (mul_ne_zero (by exact_mod_cast Nat.pos_iff_ne_zero.mp ha)
    (by exact_mod_cast Nat.pos_iff_ne_zero.mp hb))

theorem mul_wf (a b : Frac) (ha : 0 < a.den) (hb : 0 < b.den) : (a.mul b).Wf :=
  fracMk_wf _ _ (mul_ne_zero (by exact_mod_cast Nat.pos_iff_ne_zero.mp ha)
    (by exact_mod_cast Nat.pos_iff_ne_zero.mp hb))

theorem div_wf (a b : Frac) (ha : 0 < a.den) (hbn : b.num ≠ 0) : (a.div b).Wf :=
  fracMk_wf _ _ (mul_ne_zero hbn (by exact_mod_cast Nat.pos_iff_ne_zero.mp ha))

theorem floor_toQ (a : Frac) (ha : 0 < a.den) : a.floor = ⌊a.toQ⌋ := by
  unfold Frac.floor Frac.toQ
  rw [Rat.floor_intCast_div_natCast]
  rfl

theorem ceilI_toQ (a : Frac) (ha : 0 < a.den) : a.ceilI = ⌈a.toQ⌉ := by
  unfold Frac.ceilI
  have h1 : -a.toQ = (Frac.mk (-a.num) a.den).toQ := by
    unfold Frac.toQ
    push_cast
    ring
  have h2 : ⌊-a.toQ⌋ = Int.ediv (-a.num) a.den := by
    rw [h1]
    exact (floor_toQ ⟨-a.num, a.den⟩ ha).symm
  have h3 : ⌊-a.toQ⌋ = -⌈a.toQ⌉ := Int.floor_neg
  omega

/-! ### Lemmas: fract_lcm is the rational least common multiple (claim C7) -/

theorem fract_lcm_core_spec (a b : Frac) (ha : a.Wf) (hb : b.Wf)
    (hapos : 0 < a.num) (hbpos : 0 < b.num) :
    (∃ u v : Nat, 0 < u ∧ 0 < v ∧
        (fract_lcm_core a b).toQ = a.toQ * u ∧ (fract_lcm_core a b).toQ = b.toQ * v) ∧
      ∀ L : ℚ, 0 < L → (∃ u : Nat, 0 < u ∧ L = a.toQ * u) →
        (∃ v : Nat, 0 < v ∧ L = b.toQ * v) → (fract_lcm_core a b).toQ ≤ L := by
  have hadp := ha.1
  have hbdp := hb.1
  set U0 : Int := (a.den : Int) * b.num with hU0
  set V0 : Int := a.num * (b.den : Int) with hV0
  have hU0pos : 0 < U0 := mul_pos (by exact_mod_cast hadp) hbpos
  have hV0pos : 0 < V0 := mul_pos hapos (by exact_mod_cast hbdp)
  have hgpos : 0 < Int.gcd U0 V0 := Int.gcd_pos_of_ne_zero_left _ hU0pos.ne'
  have hgne : ((Int.gcd U0 V0 : Nat) : Int) ≠ 0 := by exact_mod_cast hgpos.ne'
  set U : Int := Int.ediv U0 (Int.gcd U0 V0) with hUdef
  set V : Int := Int.ediv V0 (Int.gcd U0 V0) with hVdef
  have hUg : U * (Int.gcd U0 V0 : Int) = U0 := Int.ediv_mul_cancel (Int.gcd_dvd_left)
  have hVg : V * (Int.gcd U0 V0 : Int) = V0 := Int.ediv_mul_cancel (Int.gcd_dvd_right)
  have hUpos : 0 < U := by
    rcases lt_trichotomy U 0 with h | h | h
    · nlinarith [hU0pos, hUg, hgpos]
    · rw [← hUg, h, zero_mul] at hU0pos; exact absurd hU0pos (lt_irrefl _)
    · exact h
  have hVpos : 0 < V := by
    rcases lt_trichotomy V 0 with h | h | h
    · nlinarith [hV0pos, hVg, hgpos]
    · rw [← hVg, h, zero_mul] at hV0pos; exact absurd hV0pos (lt_irrefl _)
    · exact h
  have hcop : Int.gcd U V = 1 := Int.gcd_div_gcd_div_gcd hgpos
  have hresult : fract_lcm_core a b = a.mul (Frac.ofInt U) := rfl
  have hRU : (fract_lcm_core a b).toQ = a.toQ * (U : ℚ) := by
    rw [hresult, toQ_mul a _ hadp (ofInt_wf U).1, toQ_ofInt]
  have haQpos : 0 < a.toQ := (toQ_pos a hadp).mpr hapos
  have hbQpos : 0 < b.toQ := (toQ_pos b hbdp).mpr hbpos
  have hgq : ((Int.gcd U0 V0 : Nat) : ℚ) ≠ 0 := by exact_mod_cast hgpos.ne'
  have hkey : a.toQ * (U : ℚ) = b.toQ * (V : ℚ) := by
    have h1 : a.toQ * (U : ℚ) * ((Int.gcd U0 V0 : Nat) : ℚ) =
        b.toQ * (V : ℚ) * ((Int.gcd U0 V0 : Nat) : ℚ) := by
      have e1 : (U : ℚ) * ((Int.gcd U0 V0 : Nat) : ℚ) = (U0 : ℚ) := by
        exact_mod_cast congrArg (fun z : Int => (z : ℚ)) hUg
      have e2 : (V : ℚ) * ((Int.gcd U0 V0 : Nat) : ℚ) = (V0 : ℚ) := by
        exact_mod_cast congrArg (fun z : Int => (z : ℚ)) hVg
      calc a.toQ * (U : ℚ) * ((Int.gcd U0 V0 : Nat) : ℚ)
          = a.toQ * ((U : ℚ) * ((Int.gcd U0 V0 : Nat) : ℚ)) := by ring
        _ = a.toQ * (U0 : ℚ) := by rw [e1]
        _ = b.toQ * (V0 : ℚ) := by
            unfold Frac.toQ
            rw [hU0, hV0]
            push_cast
            field_simp
            ring
        _ = b.toQ * ((V : ℚ) * ((Int.gcd U0 V0 : Nat) : ℚ)) := by rw [e2]
        _ = b.toQ * (V : ℚ) * ((Int.gcd U0 V0 : Nat) : ℚ) := by ring
    exact mul_right_cancel₀ hgq h1
  constructor
  · refine ⟨U.toNat, V.toNat, by omega, by omega, ?_, ?_⟩
    · rw [hRU]
      congr 1
      exact_mod_cast (Int.toNat_of_nonneg hUpos.le).symm
    · rw [hRU, hkey]
      congr 1
      exact_mod_cast (Int.toNat_of_nonneg hVpos.le).symm
  · rintro L hL ⟨u, hu, hLa⟩ ⟨v, hv, hLb⟩
    have hcross : a.toQ * (u : ℚ) = b.toQ * (v : ℚ) := by rw [← hLa, ← hLb]
    have hZ : V0 * (u : Int) = U0 * (v : Int) := by
      have haq := den_cast_ne a hadp
      have hbq := den_cast_ne b hbdp
      have : (V0 : ℚ) * (u : ℚ) = (U0 : ℚ) * (v : ℚ) := by
        rw [hU0, hV0]
        unfold Frac.toQ at hcross
        push_cast
        have h2 := congrArg (fun z => z * ((a.den : Nat) : ℚ) * ((b.den : Nat) : ℚ)) hcross
        simp only at h2
        field_simp at h2
        nlinarith [h2]
      exact_mod_cast this
    have hVUdvd : V * (u : Int) = U * (v : Int) := by
      have h1 : V * (Int.gcd U0 V0 : Int) * (u : Int) = U * (Int.gcd U0 V0 : Int) * (v : Int) := by
        rw [hVg, hUg]; exact hZ
      refine mul_right_cancel₀ hgne ?_
      calc V * (u : Int) * (Int.gcd U0 V0 : Int) = V * (Int.gcd U0 V0 : Int) * u := by ring
        _ = U * (Int.gcd U0 V0 : Int) * v := h1
        _ = U * (v : Int) * (Int.gcd U0 V0 : Int) := by ring
    have hUdvdu : U ∣ (u : Int) := by
      have hdvd : U ∣ V * (u : Int) := ⟨(v : Int), hVUdvd⟩
      have hcp : IsCoprime U V := by
        rw [Int.isCoprime_iff_gcd_eq_one]
        exact hcop
      exact hcp.dvd_of_dvd_mul_left hdvd
    have hUleu : (U : ℚ) ≤ (u : ℚ) := by
      have : U ≤ (u : Int) := Int.le_of_dvd (by exact_mod_cast hu) hUdvdu
      exact_mod_cast this
    rw [hRU, hLa]
    exact mul_le_mul_of_nonneg_left hUleu haQpos.le

/-! ### Lemmas: big-endian packing bit arithmetic (claims C1 and C10) -/

theorem testBit_mul256_add (x y b : Nat) (hy : y < 256) :
    (x * 256 + y).testBit b = if b < 8 then y.testBit b else x.testBit (b - 8) := by
  rcases Nat.lt_or_ge b 8 with hb | hb
  · rw [if_pos hb]
    rw [Nat.testBit_to_div_mod, Nat.testBit_to_div_mod]
    have h256 : (256 : Nat) = 2 ^ (8 - b) * 2 ^ b := by
      rw [← pow_add, show 8 - b + b = 8 from by omega]
      norm_num
    have hdiv : (x * 256 + y) / 2 ^ b = y / 2 ^ b + x * 2 ^ (8 - b) := by
      rw [h256, Nat.add_comm, mul_comm (x) (2 ^ (8 - b) * 2 ^ b)]
      rw [mul_assoc (2 ^ (8 - b)) (2 ^ b) x]
      rw [mul_comm (2 ^ b) x, ← mul_assoc (2 ^ (8 - b)) x (2 ^ b)]
      rw [Nat.add_mul_div_right _ _ (Nat.pos_pow_of_pos b (by norm_num))]
      ring_nf
    rw [hdiv]
    have h8b : 8 - b = (7 - b) + 1 := by omega
    have : x * 2 ^ (8 - b) = x * 2 ^ (7 - b) * 2 := by
      rw [h8b, pow_succ]
      ring
    rw [this, Nat.add_mul_mod_self_right]
  · rw [if_neg (by omega)]
    rw [Nat.testBit_to_div_mod, Nat.testBit_to_div_mod]
    have hb' : (2 : Nat) ^ b = 2 ^ 8 * 2 ^ (b - 8) := by
      rw [← pow_add]
      congr 1
      omega
    have hdiv : (x * 256 + y) / 2 ^ b = x / 2 ^ (b - 8) := by
      rw [hb', ← Nat.div_div_eq_div_mul]
      congr 1
      have h1 : (x * 256 + y) / 2 ^ 8 = y / 2 ^ 8 + x := by
        rw [show (256 : Nat) = 2 ^ 8 from by norm_num]
        rw [Nat.add_comm, Nat.add_mul_div_right _ _ (Nat.pos_pow_of_pos 8 (by norm_num))]
      rw [h1, Nat.div_eq_of_lt (show y < 2 ^ 8 from by omega), Nat.zero_add]
    rw [hdiv]

theorem beBytesVal_lt (bb : Nat → Nat) (base n : Nat) (h : ∀ i, i < n → bb (base + i) < 256) :
    beBytesVal bb base n < 2 ^ (8 * n) := by
  induction n with
  | zero => simp [beBytesVal]
  | succ k ih =>
    rw [beBytesVal]
    have h1 : beBytesVal bb base k < 2 ^ (8 * k) := ih fun i hi => h i (by omega)
    have h2 : bb (base + k) < 256 := h k (by omega)
    have : 2 ^ (8 * (k + 1)) = 2 ^ (8 * k) * 256 := by
      rw [show 8 * (k + 1) = 8 * k + 8 by ring, pow_add]
      norm_num
    rw [this]
    calc beBytesVal bb base k * 256 + bb (base + k)
        ≤ (2 ^ (8 * k) - 1) * 256 + 255 := by
          have := Nat.le_sub_one_of_lt h1
          have := Nat.le_sub_one_of_lt h2
          gcongr <;> omega
      _ < 2 ^ (8 * k) * 256 := by
          have : 1 ≤ 2 ^ (8 * k) := Nat.one_le_two_pow
          omega

theorem beBytesVal_testBit (bb : Nat → Nat) (base n b : Nat)
    (h : ∀ i, i < n → bb (base + i) < 256) :
    (beBytesVal bb base n).testBit b =
      if b < 8 * n then (bb (base + (n - 1 - b / 8))).testBit (b % 8) else false := by
  induction n generalizing b with
  | zero =>
    simp [beBytesVal]
  | succ k ih =>
    rw [beBytesVal]
    rw [testBit_mul256_add _ _ _ (h k (by omega))]
    rcases Nat.lt_or_ge b 8 with hb | hb
    · rw [if_pos hb, if_pos (by omega)]
      have hdiv : b / 8 = 0 := Nat.div_eq_of_lt hb
      have hmod : b % 8 = b := Nat.mod_eq_of_lt hb
      rw [hdiv, hmod]
      try congr 2
      try omega
    · rw [if_neg (by omega)]
      rw [ih (b - 8) (fun i hi => h i (by omega))]
      have hdiv : (b - 8) / 8 = b / 8 - 1 := by omega
      have hmod : (b - 8) % 8 = b % 8 := by omega
      rcases Nat.lt_or_ge (b - 8) (8 * k) with hlt | hge
      · rw [if_pos hlt, if_pos (by omega), hdiv, hmod]
        congr 2
        have hb8 : 1 ≤ b / 8 := by omega
        omega
      · rw [if_neg (by omega), if_neg (by omega)]

theorem packByte_lt (x span i : Nat) : packByte x span i < 256 := by
  unfold packByte
  have : x >>> (8 * (span - 1 - i)) &&& 255 ≤ 255 := Nat.and_le_right
  omega

theorem packByte_testBit (x span i b : Nat) :
    (packByte x span i).testBit b = (decide (b < 8) && x.testBit (8 * (span - 1 - i) + b)) := by
  unfold packByte
  rw [Nat.testBit_land]
  rw [show (255 : Nat) = 2 ^ 8 - 1 by norm_num, Nat.testBit_two_pow_sub_one]
  rw [Nat.testBit_shiftRight]
  try rw [Bool.and_comm]

theorem extract_testBit (r : Register) (bb : Nat → Nat) (b : Nat) :
    (r.extract bb).testBit b =
      (decide (b < r.width) &&
        (beBytesVal bb r.base_address r.byte_span).testBit (r.shift + b)) := by
  unfold Register.extract
  rw [Nat.testBit_land, Nat.testBit_two_pow_sub_one, Nat.testBit_shiftRight]
  rw [Bool.and_comm]

theorem insert_data_in (r : Register) (v : Nat) (s : MaskedBytes) (j : Nat)
    (h1 : r.base_address ≤ j) (h2 : j < r.base_address + r.byte_span) :
    (s.insert r v).data j =
      (s.data j &&& (255 ^^^ packByte ((2 ^ r.width - 1) <<< r.shift) r.byte_span
          (j - r.base_address))) |||
        (packByte (v <<< r.shift) r.byte_span (j - r.base_address) &&&
          packByte ((2 ^ r.width - 1) <<< r.shift) r.byte_span (j - r.base_address)) := by
  unfold MaskedBytes.insert
  simp only [if_pos (And.intro h1 h2)]

theorem insert_mask_in (r : Register) (v : Nat) (s : MaskedBytes) (j : Nat)
    (h1 : r.base_address ≤ j) (h2 : j < r.base_address + r.byte_span) :
    (s.insert r v).mask j =
      s.mask j ||| packByte ((2 ^ r.width - 1) <<< r.shift) r.byte_span
        (j - r.base_address) := by
  unfold MaskedBytes.insert
  simp only [if_pos (And.intro h1 h2)]

theorem insert_data_out (r : Register) (v : Nat) (s : MaskedBytes) (j : Nat)
    (h : ¬(r.base_address ≤ j ∧ j < r.base_address + r.byte_span)) :
    (s.insert r v).data j = s.data j := by
  unfold MaskedBytes.insert
  simp only [if_neg h]

theorem insert_mask_out (r : Register) (v : Nat) (s : MaskedBytes) (j : Nat)
    (h : ¬(r.base_address ≤ j ∧ j < r.base_address + r.byte_span)) :
    (s.insert r v).mask j = s.mask j := by
  unfold MaskedBytes.insert
  simp only [if_neg h]

theorem insert_data_bytes (r : Register) (v : Nat) (s : MaskedBytes)
    (hd : ByteFn s.data) : ByteFn (s.insert r v).data := by
  intro j
  by_cases h : r.base_address ≤ j ∧ j < r.base_address + r.byte_span
  · rw [insert_data_in r v s j h.1 h.2]
    have hA : s.data j &&& (255 ^^^ packByte ((2 ^ r.width - 1) <<< r.shift) r.byte_span
        (j - r.base_address)) < 256 := by
      have h2 := packByte_lt ((2 ^ r.width - 1) <<< r.shift) r.byte_span (j - r.base_address)
      have hxor : 255 ^^^ packByte ((2 ^ r.width - 1) <<< r.shift) r.byte_span
          (j - r.base_address) < 2 ^ 8 :=
        Nat.xor_lt_two_pow (by norm_num) (by omega)
      have hle : s.data j &&& (255 ^^^ packByte ((2 ^ r.width - 1) <<< r.shift) r.byte_span
          (j - r.base_address)) ≤ 255 ^^^ packByte ((2 ^ r.width - 1) <<< r.shift) r.byte_span
          (j - r.base_address) := Nat.and_le_right
      omega
    have hB : packByte (v <<< r.shift) r.byte_span (j - r.base_address) &&&
        packByte ((2 ^ r.width - 1) <<< r.shift) r.byte_span (j - r.base_address) < 256 := by
      have h2 := packByte_lt (v <<< r.shift) r.byte_span (j - r.base_address)
      have hle : packByte (v <<< r.shift) r.byte_span (j - r.base_address) &&&
          packByte ((2 ^ r.width - 1) <<< r.shift) r.byte_span (j - r.base_address) ≤
          packByte (v <<< r.shift) r.byte_span (j - r.base_address) := Nat.and_le_left
      omega
    have hor : (s.data j &&& (255 ^^^ packByte ((2 ^ r.width - 1) <<< r.shift) r.byte_span
        (j - r.base_address))) |||
        (packByte (v <<< r.shift) r.byte_span (j - r.base_address) &&&
          packByte ((2 ^ r.width - 1) <<< r.shift) r.byte_span (j - r.base_address)) < 2 ^ 8 :=
      Nat.or_lt_two_pow (by omega) (by omega)
    omega
  · rw [insert_data_out r v s j h]
    exact hd j

theorem insert_mask_bytes (r : Register) (v : Nat) (s : MaskedBytes)
    (hm : ByteFn s.mask) : ByteFn (s.insert r v).mask := by
  intro j
  by_cases h : r.base_address ≤ j ∧ j < r.base_address + r.byte_span
  · rw [insert_mask_in r v s j h.1 h.2]
    have h2 := packByte_lt ((2 ^ r.width - 1) <<< r.shift) r.byte_span (j - r.base_address)
    have hor : s.mask j ||| packByte ((2 ^ r.width - 1) <<< r.shift) r.byte_span
        (j - r.base_address) < 2 ^ 8 :=
      Nat.or_lt_two_pow (show s.mask j < 2 ^ 8 by have := hm j; omega) (by omega)
    omega
  · rw [insert_mask_out r v s j h]
    exact hm j

theorem shifted_mask_testBit (w sh k : Nat) :
    ((2 ^ w - 1) <<< sh).testBit (sh + k) = decide (k < w) := by
  rw [Nat.testBit_shiftLeft, Nat.testBit_two_pow_sub_one]
  simp [Nat.le_add_right, Nat.add_sub_cancel_left]

theorem shifted_value_testBit (v sh k : Nat) :
    ((v <<< sh)).testBit (sh + k) = v.testBit k := by
  rw [Nat.testBit_shiftLeft]
  simp [Nat.le_add_right, Nat.add_sub_cancel_left]

theorem insert_extract_bit (r : Register) (v : Nat) (s : MaskedBytes)
    (hr : r.valid) (hv : v < 2 ^ r.width) (hd : ByteFn s.data) (b : Nat) :
    ((s.insert r v).extract r).testBit b = v.testBit b := by
  obtain ⟨hw, hn, hn8, hsw, hms, hbase⟩ := hr
  have hbytes : ∀ i, i < r.byte_span → (s.insert r v).data (r.base_address + i) < 256 :=
    fun i _ => insert_data_bytes r v s hd (r.base_address + i)
  rw [MaskedBytes.extract, extract_testBit]
  rcases Nat.lt_or_ge b r.width with hb | hb
  · rw [beBytesVal_testBit _ _ _ _ hbytes, if_pos (by omega)]
    set q := (r.shift + b) / 8 with hq
    set rr := (r.shift + b) % 8 with hrr
    have hqr : 8 * q + rr = r.shift + b := by rw [hq, hrr]; omega
    have hrr8 : rr < 8 := by rw [hrr]; omega
    have hqn : q < r.byte_span := by
      have h1 : r.shift + b < 8 * r.byte_span := by omega
      omega
    set i := r.byte_span - 1 - q with hi
    have hni : r.byte_span - 1 - i = q := by omega
    rw [insert_data_in r v s (r.base_address + i) (by omega) (by omega)]
    rw [show r.base_address + i - r.base_address = i from by omega]
    have hMbit : (packByte ((2 ^ r.width - 1) <<< r.shift) r.byte_span i).testBit rr = true := by
      rw [packByte_testBit, hni, hqr, shifted_mask_testBit]
      simp [hrr8, hb]
    have hCbit : (255 ^^^ packByte ((2 ^ r.width - 1) <<< r.shift) r.byte_span i).testBit rr
        = false := by
      rw [Nat.testBit_xor, hMbit]
      rw [show (255 : Nat) = 2 ^ 8 - 1 from by norm_num, Nat.testBit_two_pow_sub_one]
      simp [hrr8]
    have hPbit : (packByte (v <<< r.shift) r.byte_span i).testBit rr = v.testBit b := by
      rw [packByte_testBit, hni, hqr, shifted_value_testBit]
      simp [hrr8]
    rw [Nat.testBit_lor, Nat.testBit_land, Nat.testBit_land, hCbit, hMbit, hPbit]
    simp [hb]
  · rw [decide_eq_false (by omega : ¬b < r.width), Bool.false_and]
    have hvb : v < 2 ^ b := lt_of_lt_of_le hv (Nat.pow_le_pow_right (by norm_num) hb)
    exact (Nat.testBit_eq_false_of_lt hvb).symm

theorem insert_extract_mask_bit (r : Register) (v : Nat) (s : MaskedBytes)
    (hr : r.valid) (hm : ByteFn s.mask) (b : Nat) :
    ((s.insert r v).extract_mask r).testBit b = (2 ^ r.width - 1).testBit b := by
  obtain ⟨hw, hn, hn8, hsw, hms, hbase⟩ := hr
  have hbytes : ∀ i, i < r.byte_span → (s.insert r v).mask (r.base_address + i) < 256 :=
    fun i _ => insert_mask_bytes r v s hm (r.base_address + i)
  rw [MaskedBytes.extract_mask, extract_testBit, Nat.testBit_two_pow_sub_one]
  rcases Nat.lt_or_ge b r.width with hb | hb
  · rw [beBytesVal_testBit _ _ _ _ hbytes, if_pos (by omega)]
    set q := (r.shift + b) / 8 with hq
    set rr := (r.shift + b) % 8 with hrr
    have hqr : 8 * q + rr = r.shift + b := by rw [hq, hrr]; omega
    have hrr8 : rr < 8 := by rw [hrr]; omega
    have hqn : q < r.byte_span := by
      have h1 : r.shift + b < 8 * r.byte_span := by omega
      omega
    set i := r.byte_span - 1 - q with hi
    have hni : r.byte_span - 1 - i = q := by omega
    rw [insert_mask_in r v s (r.base_address + i) (by omega) (by omega)]
    rw [show r.base_address + i - r.base_address = i from by omega]
    have hMbit : (packByte ((2 ^ r.width - 1) <<< r.shift) r.byte_span i).testBit rr = true := by
      rw [packByte_testBit, hni, hqr, shifted_mask_testBit]
      simp [hrr8, hb]
    rw [Nat.testBit_lor, hMbit]
    simp [hb]
  · rw [decide_eq_false (by omega : ¬b < r.width), Bool.false_and]

theorem byteFn_const (c : Nat) (h : c < 256) : ByteFn (fun _ => c) := fun _ => h

/-- Claim C1: for every validated Register r and every value v below
2 ^ r.width, starting from any byte image, insert(r, v) followed by
extract(r) returns v, and extract_mask(r) then returns
(1 <<< r.width) - 1, every bit of the register marked written. -/
theorem claim_C1_insert_extract_roundtrip (r : Register) (v : Nat) (s : MaskedBytes)
    (hr : r.valid) (hv : v < 2 ^ r.width) (hd : ByteFn s.data) (hm : ByteFn s.mask) :
    (s.insert r v).extract r = v ∧
      (s.insert r v).extract_mask r = (1 <<< r.width) - 1 := by
  refine ⟨Nat.eq_of_testBit_eq (insert_extract_bit r v s hr hv hd), ?_⟩
  have h1 : (1 : Nat) <<< r.width = 2 ^ r.width := by
    rw [Nat.shiftLeft_eq, one_mul]
  rw [h1]
  exact Nat.eq_of_testBit_eq (insert_extract_mask_bit r v s hr hm)

/-- Witness for claim C1 at a five-byte forty-bit register over the
image with every data byte 173 and every mask byte 96. -/
theorem claim_C1_insert_extract_roundtrip_witness :
    (Register.mk 100 5 0 40).valid ∧ 737894400035 < 2 ^ 40 ∧
      (((MaskedBytes.mk (fun _ => 173) (fun _ => 96)).insert
            (Register.mk 100 5 0 40) 737894400035).extract (Register.mk 100 5 0 40)
          = 737894400035 ∧
        ((MaskedBytes.mk (fun _ => 173) (fun _ => 96)).insert
            (Register.mk 100 5 0 40) 737894400035).extract_mask (Register.mk 100 5 0 40)
          = (1 <<< 40) - 1) :=
  ⟨by decide, by decide,
    claim_C1_insert_extract_roundtrip (Register.mk 100 5 0 40) 737894400035
      (MaskedBytes.mk (fun _ => 173) (fun _ => 96)) (by decide) (by decide)
      (byteFn_const 173 (by decide)) (byteFn_const 96 (by decide))⟩

/-- Claim C10: MaskedBytes.insert is frame preserving.  Outside the
byte span both images are untouched; inside the span a data-byte bit
not selected by the shift and width keeps its value; and a mask bit
that was set stays set, the mask is only ever OR-ed. -/
theorem claim_C10_insert_frame (r : Register) (v : Nat) (s : MaskedBytes)
    (hd : ByteFn s.data) :
    (∀ j, ¬(r.base_address ≤ j ∧ j < r.base_address + r.byte_span) →
        (s.insert r v).data j = s.data j ∧ (s.insert r v).mask j = s.mask j) ∧
      (∀ i b, i < r.byte_span → r.selects i b = false →
        ((s.insert r v).data (r.base_address + i)).testBit b
          = (s.data (r.base_address + i)).testBit b) ∧
      (∀ j b, (s.mask j).testBit b = true → ((s.insert r v).mask j).testBit b = true) := by
  refine ⟨fun j h => ⟨insert_data_out r v s j h, insert_mask_out r v s j h⟩, ?_, ?_⟩
  · intro i b hi hsel
    rcases Nat.lt_or_ge b 8 with hb | hb
    · rw [insert_data_in r v s (r.base_address + i) (Nat.le_add_right _ _) (by omega)]
      rw [show r.base_address + i - r.base_address = i from by omega]
      have hm0 : ((2 ^ r.width - 1) <<< r.shift).testBit (8 * (r.byte_span - 1 - i) + b)
          = false := by
        unfold Register.selects at hsel
        rw [Nat.testBit_shiftRight] at hsel
        simpa [hb] using hsel
      have hMbit : (packByte ((2 ^ r.width - 1) <<< r.shift) r.byte_span i).testBit b
          = false := by
        rw [packByte_testBit, hm0, Bool.and_false]
      rw [Nat.testBit_lor, Nat.testBit_land, Nat.testBit_land, Nat.testBit_xor, hMbit]
      rw [show (255 : Nat) = 2 ^ 8 - 1 from by norm_num, Nat.testBit_two_pow_sub_one]
      simp [hb]
    · have h1 : (s.insert r v).data (r.base_address + i) < 2 ^ 8 := by
        have := insert_data_bytes r v s hd (r.base_address + i)
        omega
      have h2 : s.data (r.base_address + i) < 2 ^ 8 := by
        have := hd (r.base_address + i)
        omega
      have e8 : (2 : Nat) ^ 8 ≤ 2 ^ b := Nat.pow_le_pow_right (by norm_num) hb
      rw [Nat.testBit_eq_false_of_lt (lt_of_lt_of_le h1 e8),
        Nat.testBit_eq_false_of_lt (lt_of_lt_of_le h2 e8)]
  · intro j b hset
    by_cases h : r.base_address ≤ j ∧ j < r.base_address + r.byte_span
    · rw [insert_mask_in r v s j h.1 h.2, Nat.testBit_lor, hset, Bool.true_or]
    · rw [insert_mask_out r v s j h]
      exact hset

/-- Witness for claim C10 at a two-byte register of width twelve: data
byte 99 and mask byte 99 are outside the span and untouched, bit 6 of
data byte 100 is unselected and keeps its value, and bit 5 of mask byte
100 was set and stays set. -/
theorem claim_C10_insert_frame_witness :
    ((MaskedBytes.mk (fun _ => 173) (fun _ => 96)).insert
        (Register.mk 100 2 0 12) 7).data 99 = 173 ∧
      ((MaskedBytes.mk (fun _ => 173) (fun _ => 96)).insert
          (Register.mk 100 2 0 12) 7).mask 99 = 96 ∧
      (((MaskedBytes.mk (fun _ => 173) (fun _ => 96)).insert
          (Register.mk 100 2 0 12) 7).data 100).testBit 6 = Nat.testBit 173 6 ∧
      (((MaskedBytes.mk (fun _ => 173) (fun _ => 96)).insert
          (Register.mk 100 2 0 12) 7).mask 100).testBit 5 = true :=
  ⟨((claim_C10_insert_frame (Register.mk 100 2 0 12) 7
        (MaskedBytes.mk (fun _ => 173) (fun _ => 96)) (byteFn_const 173 (by decide))).1 99
      (by decide)).1,
    ((claim_C10_insert_frame (Register.mk 100 2 0 12) 7
        (MaskedBytes.mk (fun _ => 173) (fun _ => 96)) (byteFn_const 173 (by decide))).1 99
      (by decide)).2,
    (claim_C10_insert_frame (Register.mk 100 2 0 12) 7
        (MaskedBytes.mk (fun _ => 173) (fun _ => 96)) (byteFn_const 173 (by decide))).2.1 0 6
      (by decide) (by decide),
    (claim_C10_insert_frame (Register.mk 100 2 0 12) 7
        (MaskedBytes.mk (fun _ => 173) (fun _ => 96)) (byteFn_const 173 (by decide))).2.2 100 5
      (by decide)⟩

/-- Claim C7: for positive well-formed fractions a and b, fract_lcm
returns the smallest positive rational that is an integer multiple of
both: it equals a * u and b * v for positive integers u and v, and no
smaller positive rational with that property exists. -/
theorem claim_C7_fract_lcm_smallest (a b : Frac) (ha : a.Wf) (hb : b.Wf)
    (hapos : 0 < a.num) (hbpos : 0 < b.num) :
    fract_lcm (some a) (some b) = some (fract_lcm_core a b) ∧
      (∃ u v : Nat, 0 < u ∧ 0 < v ∧
          (fract_lcm_core a b).toQ = a.toQ * u ∧ (fract_lcm_core a b).toQ = b.toQ * v) ∧
      ∀ L : ℚ, 0 < L → (∃ u : Nat, 0 < u ∧ L = a.toQ * u) →
        (∃ v : Nat, 0 < v ∧ L = b.toQ * v) → (fract_lcm_core a b).toQ ≤ L :=
  ⟨rfl, fract_lcm_core_spec a b ha hb hapos hbpos⟩

/-- Witness for claim C7 at a = 3/4 and b = 5/6, whose least common
multiple is 15/2. -/
theorem claim_C7_fract_lcm_smallest_witness :
    (fracMk 3 4).Wf ∧ (fracMk 5 6).Wf ∧
      0 < (fracMk 3 4).num ∧ 0 < (fracMk 5 6).num ∧
      (fract_lcm (some (fracMk 3 4)) (some (fracMk 5 6))
          = some (fract_lcm_core (fracMk 3 4) (fracMk 5 6)) ∧
        (∃ u v : Nat, 0 < u ∧ 0 < v ∧
            (fract_lcm_core (fracMk 3 4) (fracMk 5 6)).toQ = (fracMk 3 4).toQ * u ∧
            (fract_lcm_core (fracMk 3 4) (fracMk 5 6)).toQ = (fracMk 5 6).toQ * v) ∧
        ∀ L : ℚ, 0 < L → (∃ u : Nat, 0 < u ∧ L = (fracMk 3 4).toQ * u) →
          (∃ v : Nat, 0 < v ∧ L = (fracMk 5 6).toQ * v) →
          (fract_lcm_core (fracMk 3 4) (fracMk 5 6)).toQ ≤ L) :=
  ⟨by decide, by decide, by decide, by decide,
    claim_C7_fract_lcm_smallest (fracMk 3 4) (fracMk 5 6)
      (by decide) (by decide) (by decide) (by decide)⟩

/-- Claim C2 fails on the source: with number 6, primes [2, 3] and both
bounds 6, factor_splitting yields the pair (1, 6) twice (as it does
every pair), because the swapped second enumeration is not guarded by
an else when maxL is at most maxR. -/
theorem claim_C2_factor_splitting_duplicate :
    (factor_splitting 6 [2, 3] 6 6).count (1, 6) = 2 := by decide

set_option maxRecDepth 100000 in
set_option maxHeartbeats 4000000 in
/-- Claim C3 fails on the source: on dpllBoundaryTarget the planner
goes through baw_plan_low_approx, whose limit_denominator bound is
1 <<< 40 instead of (1 <<< 40) - 1, and the returned plan has fb_div
denominator exactly 2 ^ 40, not strictly below it. -/
theorem claim_C3_dpll_plan_den_at_bound :
    (dpll_plan dpllBoundaryTarget).map (fun p => p.fb_div.den) = some (2 ^ 40) := by
  decide

theorem bpffGo_cons (t : Target) (freq ratio : Frac) (p : Nat) (rest : List Nat)
    (best : Option DPLLPlan) :
    bpffGo t freq ratio (p :: rest) best =
      (if fbFilter (((ratio.div (Frac.ofInt 2)).div (Frac.ofInt p)).limit_denominator
            (2 ^ 40 - 1)) then
          bpffGo t freq ratio rest best
        else if ((t.reference.mul (Frac.ofInt 2)).mul (Frac.ofInt p)).mul
            (((ratio.div (Frac.ofInt 2)).div (Frac.ofInt p)).limit_denominator
              (2 ^ 40 - 1)) = freq then
          some { baw := ((t.reference.mul (Frac.ofInt 2)).mul (Frac.ofInt p)).mul
                  (((ratio.div (Frac.ofInt 2)).div (Frac.ofInt p)).limit_denominator
                    (2 ^ 40 - 1))
                 baw_target := freq
                 pll1_pfd := t.pll1_pfd
                 reference := t.reference
                 fb_prediv := p
                 fb_div := ((ratio.div (Frac.ofInt 2)).div (Frac.ofInt p)).limit_denominator
                   (2 ^ 40 - 1) }
        else
          bpffGo t freq ratio rest
            (if DPLLPlan.dlt
                { baw := ((t.reference.mul (Frac.ofInt 2)).mul (Frac.ofInt p)).mul
                    (((ratio.div (Frac.ofInt 2)).div (Frac.ofInt p)).limit_denominator
                      (2 ^ 40 - 1))
                  baw_target := freq
                  pll1_pfd := t.pll1_pfd
                  reference := t.reference
                  fb_prediv := p
                  fb_div := ((ratio.div (Frac.ofInt 2)).div (Frac.ofInt p)).limit_denominator
                    (2 ^ 40 - 1) } best then
              some { baw := ((t.reference.mul (Frac.ofInt 2)).mul (Frac.ofInt p)).mul
                      (((ratio.div (Frac.ofInt 2)).div (Frac.ofInt p)).limit_denominator
                        (2 ^ 40 - 1))
                     baw_target := freq
                     pll1_pfd := t.pll1_pfd
                     reference := t.reference
                     fb_prediv := p
                     fb_div := ((ratio.div (Frac.ofInt 2)).div (Frac.ofInt p)).limit_denominator
                       (2 ^ 40 - 1) }
            else best)) := rfl

theorem bpffGo_exact (t : Target) (freq ratio : Frac) (l : List Nat) :
    ∀ best : Option DPLLPlan,
      (∃ p ∈ l,
        fbFilter (((ratio.div (Frac.ofInt 2)).div (Frac.ofInt p)).limit_denominator
          (2 ^ 40 - 1)) = false ∧
        ((t.reference.mul (Frac.ofInt 2)).mul (Frac.ofInt p)).mul
          (((ratio.div (Frac.ofInt 2)).div (Frac.ofInt p)).limit_denominator
            (2 ^ 40 - 1)) = freq) →
      ∃ plan, bpffGo t freq ratio l best = some plan ∧ plan.baw = freq := by
  induction l with
  | nil =>
    intro best h
    simp at h
  | cons q rest ih =>
    intro best h
    obtain ⟨p, hp, hfilt, hexact⟩ := h
    rw [bpffGo_cons]
    rcases List.mem_cons.mp hp with rfl | hprest
    · rw [if_neg (by rw [hfilt]; exact Bool.false_ne_true)]
      rw [if_pos hexact]
      exact ⟨_, rfl, hexact⟩
    · by_cases hq : fbFilter (((ratio.div (Frac.ofInt 2)).div (Frac.ofInt q)).limit_denominator
          (2 ^ 40 - 1)) = true
      · rw [if_pos hq]
        exact ih best ⟨p, hprest, hfilt, hexact⟩
      · rw [if_neg hq]
        by_cases hb : ((t.reference.mul (Frac.ofInt 2)).mul (Frac.ofInt q)).mul
            (((ratio.div (Frac.ofInt 2)).div (Frac.ofInt q)).limit_denominator
              (2 ^ 40 - 1)) = freq
        · rw [if_pos hb]
          exact ⟨_, rfl, hb⟩
        · rw [if_neg hb]
          exact ih _ ⟨p, hprest, hfilt, hexact⟩

/-- Claim C5 amended: the sweep of baw_plan_for_freq returns a plan
whose baw equals the target frequency whenever some fb_prediv in 2..=17
realises the frequency exactly with a denominator at most 2 ^ 40 - 1
AND the resulting exact fb_div passes the heuristic fractional-part
filter.  The source applies the filter before the exactness test, so
exactness alone, the condition claimed, is not enough. -/
theorem claim_C5_exact_unfiltered_plan_returned (t : Target) (f : Frac) (p : Nat)
    (hmem : p ∈ predivList) (hf : f.Wf) (href : t.reference.Wf)
    (hrefnz : t.reference.num ≠ 0)
    (hden : ((((f.div t.reference).div (Frac.ofInt 2)).div (Frac.ofInt p))).den ≤ 2 ^ 40 - 1)
    (hfilter : fbFilter ((((f.div t.reference).div (Frac.ofInt 2)).div (Frac.ofInt p)))
      = false) :
    ∃ plan, baw_plan_for_freq t f = some plan ∧ plan.baw = f := by
  have hp2 : 2 ≤ p := by
    simp only [predivList, List.mem_map, List.mem_range] at hmem
    obtain ⟨k, hk, rfl⟩ := hmem
    omega
  have hmem2 : p ∈ predivList := hmem
  have hpI : ((p : Int)) ≠ 0 := by
    exact_mod_cast Nat.pos_iff_ne_zero.mp (by omega : 0 < p)
  have hpQ : ((p : ℚ)) ≠ 0 := Nat.cast_ne_zero.mpr (by omega)
  have h1 : (f.div t.reference).Wf := div_wf f t.reference hf.1 hrefnz
  have h2 : ((f.div t.reference).div (Frac.ofInt 2)).Wf :=
    div_wf _ _ h1.1 (by decide)
  have h3 : ((((f.div t.reference).div (Frac.ofInt 2)).div (Frac.ofInt p))).Wf :=
    div_wf _ _ h2.1 hpI
  have hld : ((((f.div t.reference).div (Frac.ofInt 2)).div
      (Frac.ofInt p))).limit_denominator (2 ^ 40 - 1) =
      (((f.div t.reference).div (Frac.ofInt 2)).div (Frac.ofInt p)) := by
    unfold Frac.limit_denominator
    rw [if_pos hden]
  have hw1 : (t.reference.mul (Frac.ofInt 2)).Wf := mul_wf _ _ href.1 (ofInt_wf 2).1
  have hw2 : ((t.reference.mul (Frac.ofInt 2)).mul (Frac.ofInt p)).Wf :=
    mul_wf _ _ hw1.1 (ofInt_wf _).1
  have hw3 : (((t.reference.mul (Frac.ofInt 2)).mul (Frac.ofInt p)).mul
      ((((f.div t.reference).div (Frac.ofInt 2)).div (Frac.ofInt p)))).Wf :=
    mul_wf _ _ hw2.1 h3.1
  have hrefQ : t.reference.toQ ≠ 0 := by
    intro h0
    exact hrefnz ((toQ_num_zero t.reference href.1).mp h0)
  have e1 : (f.div t.reference).toQ = f.toQ / t.reference.toQ :=
    toQ_div f t.reference hf.1 href.1 hrefnz
  have e2 : ((f.div t.reference).div (Frac.ofInt 2)).toQ =
      (f.div t.reference).toQ / 2 := by
    rw [toQ_div _ _ h1.1 (ofInt_wf 2).1 (by decide), toQ_ofInt]
    norm_num
  have e3 : ((((f.div t.reference).div (Frac.ofInt 2)).div (Frac.ofInt p))).toQ =
      ((f.div t.reference).div (Frac.ofInt 2)).toQ / (p : ℚ) := by
    rw [toQ_div _ _ h2.1 (ofInt_wf _).1 hpI, toQ_ofInt]
    push_cast
    ring
  have ebaw : (((t.reference.mul (Frac.ofInt 2)).mul (Frac.ofInt p)).mul
      ((((f.div t.reference).div (Frac.ofInt 2)).div (Frac.ofInt p)))).toQ = f.toQ := by
    rw [toQ_mul _ _ hw2.1 h3.1, toQ_mul _ _ hw1.1 (ofInt_wf _).1,
      toQ_mul _ _ href.1 (ofInt_wf 2).1, toQ_ofInt, toQ_ofInt, e3, e2, e1]
    push_cast
    field_simp
  have hexact : ((t.reference.mul (Frac.ofInt 2)).mul (Frac.ofInt p)).mul
      ((((f.div t.reference).div (Frac.ofInt 2)).div (Frac.ofInt p))) = f :=
    toQ_inj _ f hw3 hf ebaw
  exact bpffGo_exact t f (f.div t.reference) predivList none
    ⟨p, hmem2, by rw [hld]; exact hfilter, by rw [hld]; exact hexact⟩

set_option maxRecDepth 100000 in
set_option maxHeartbeats 1000000 in
/-- Counterexample to claim C5 as stated: filterTrapFreq is realised
exactly by fb_prediv 2 with fb_div 33/32 of tiny denominator, yet its
fractional part 1/32 puts it inside the filter zone, the filter fires
before the exactness test, every other prediv is filtered too, and the
sweep returns no plan at all. -/
theorem claim_C5_filter_rejects_exact_counterexample :
    (2 ∈ predivList ∧
      filterTrapFreq.Wf ∧
      ((((filterTrapFreq.div REF_FREQ).div (Frac.ofInt 2)).div (Frac.ofInt 2))).den
        ≤ 2 ^ 40 - 1 ∧
      ((REF_FREQ.mul (Frac.ofInt 2)).mul (Frac.ofInt 2)).mul
        ((((filterTrapFreq.div REF_FREQ).div (Frac.ofInt 2)).div (Frac.ofInt 2)))
        = filterTrapFreq ∧
      fbFilter ((((filterTrapFreq.div REF_FREQ).div (Frac.ofInt 2)).div (Frac.ofInt 2)))
        = true) ∧
    baw_plan_for_freq filterTrapTarget filterTrapFreq = none := by decide

/-- Witness for the amended claim C5 at target frequency six times the
reference, realised exactly at fb_prediv 2 by the unfiltered fb_div 3/2. -/
theorem claim_C5_exact_unfiltered_plan_returned_witness :
    2 ∈ predivList ∧
      ((REF_FREQ.mul (Frac.ofInt 6)).Wf ∧
        ({ freqs := [] } : Target).reference.Wf ∧
        ({ freqs := [] } : Target).reference.num ≠ 0) ∧
      ((((REF_FREQ.mul (Frac.ofInt 6)).div ({ freqs := [] } : Target).reference).div
            (Frac.ofInt 2)).div (Frac.ofInt 2)).den ≤ 2 ^ 40 - 1 ∧
      fbFilter ((((REF_FREQ.mul (Frac.ofInt 6)).div ({ freqs := [] } : Target).reference).div
          (Frac.ofInt 2)).div (Frac.ofInt 2)) = false ∧
      ∃ plan, baw_plan_for_freq ({ freqs := [] } : Target) (REF_FREQ.mul (Frac.ofInt 6))
          = some plan ∧ plan.baw = REF_FREQ.mul (Frac.ofInt 6) :=
  ⟨by decide, ⟨by decide, by decide, by decide⟩, by decide, by decide,
    claim_C5_exact_unfiltered_plan_returned ({ freqs := [] } : Target)
      (REF_FREQ.mul (Frac.ofInt 6)) 2
      (by decide) (by decide) (by decide) (by decide) (by decide) (by decide)⟩

theorem intRange_length (lo hi : Int) : (intRange lo hi).length = (hi + 1 - lo).toNat := by
  unfold intRange
  rw [List.length_map, List.length_range]

theorem intRange_mem (lo hi m : Int) : m ∈ intRange lo hi ↔ lo ≤ m ∧ m ≤ hi := by
  unfold intRange
  simp only [List.mem_map, List.mem_range]
  constructor
  · rintro ⟨k, hk, rfl⟩
    omega
  · intro h
    exact ⟨(m - lo).toNat, by omega, by omega⟩

theorem claim_C6_pll2_candidate_window (lcm : Frac) (hwf : lcm.Wf) (hpos : 0 < lcm.num) :
    (∀ fq ∈ pll2_plan_candidates lcm,
        ∃ m ∈ pll2_plan_mults lcm, fq = (Frac.ofInt m).mul lcm ∧
          PLL2_LOW.toQ ≤ fq.toQ ∧ fq.toQ ≤ PLL2_HIGH.toQ) ∧
      (∀ m : Int, PLL2_LOW.toQ ≤ (m : ℚ) * lcm.toQ → (m : ℚ) * lcm.toQ ≤ PLL2_HIGH.toQ →
        m ∈ pll2_plan_mults lcm) ∧
      (SMALL.toQ ≤ lcm.toQ →
        (pll2_plan_mults lcm).length ≤ (2 * MAX_HALF_RANGE + 1).toNat) := by
  have hlne : lcm.num ≠ 0 := by omega
  have hl0 : 0 < lcm.toQ := (toQ_pos lcm hwf.1).mpr hpos
  have hLq : (PLL2_LOW.div lcm).toQ = PLL2_LOW.toQ / lcm.toQ :=
    toQ_div PLL2_LOW lcm (by decide) hwf.1 hlne
  have hHq : (PLL2_HIGH.div lcm).toQ = PLL2_HIGH.toQ / lcm.toQ :=
    toQ_div PLL2_HIGH lcm (by decide) hwf.1 hlne
  have hc : (PLL2_LOW.div lcm).ceilI = ⌈PLL2_LOW.toQ / lcm.toQ⌉ := by
    rw [ceilI_toQ _ (div_wf PLL2_LOW lcm (by decide) hlne).1, hLq]
  have hfl : PLL2_HIGH.fdiv lcm = ⌊PLL2_HIGH.toQ / lcm.toQ⌋ := by
    show (PLL2_HIGH.div lcm).floor = _
    rw [floor_toQ _ (div_wf PLL2_HIGH lcm (by decide) hlne).1, hHq]
  have hmults : ∀ m : Int, m ∈ pll2_plan_mults lcm ↔
      ⌈PLL2_LOW.toQ / lcm.toQ⌉ ≤ m ∧ m ≤ ⌊PLL2_HIGH.toQ / lcm.toQ⌋ := by
    intro m
    unfold pll2_plan_mults
    rw [hc, hfl]
    exact intRange_mem _ _ m
  refine ⟨?_, ?_, ?_⟩
  · intro fq hfq
    obtain ⟨m, hm, rfl⟩ := List.mem_map.mp hfq
    have hr := (hmults m).mp hm
    have hq : ((Frac.ofInt m).mul lcm).toQ = (m : ℚ) * lcm.toQ := by
      rw [toQ_mul _ _ (ofInt_wf m).1 hwf.1, toQ_ofInt]
    refine ⟨m, hm, rfl, ?_, ?_⟩
    · rw [hq]
      have h1 : PLL2_LOW.toQ / lcm.toQ ≤ (m : ℚ) :=
        le_trans (Int.le_ceil _) (by exact_mod_cast hr.1)
      calc PLL2_LOW.toQ = PLL2_LOW.toQ / lcm.toQ * lcm.toQ :=
            (div_mul_cancel₀ PLL2_LOW.toQ hl0.ne').symm
        _ ≤ (m : ℚ) * lcm.toQ := mul_le_mul_of_nonneg_right h1 hl0.le
    · rw [hq]
      have h2 : (m : ℚ) ≤ PLL2_HIGH.toQ / lcm.toQ :=
        le_trans (by exact_mod_cast hr.2) (Int.floor_le _)
      calc (m : ℚ) * lcm.toQ ≤ PLL2_HIGH.toQ / lcm.toQ * lcm.toQ :=
            mul_le_mul_of_nonneg_right h2 hl0.le
        _ = PLL2_HIGH.toQ := div_mul_cancel₀ PLL2_HIGH.toQ hl0.ne'
  · intro m h1 h2
    refine (hmults m).mpr ⟨Int.ceil_le.mpr ?_, Int.le_floor.mpr ?_⟩
    · rw [div_le_iff hl0]
      exact h1
    · rw [le_div_iff hl0]
      exact h2
  · intro hsm
    have hS : SMALL.toQ = 1 / 20 := by
      rw [show SMALL = fracMk 1 20 from by decide, toQ_fracMk 1 20 (by norm_num)]
      norm_num
    have hL : PLL2_LOW.toQ = 5340 := by
      rw [show PLL2_LOW = Frac.ofInt 5340 from by decide, toQ_ofInt]
      norm_num
    have hH : PLL2_HIGH.toQ = 6410 := by
      rw [show PLL2_HIGH = Frac.ofInt 6410 from by decide, toQ_ofInt]
      norm_num
    have hlen : (pll2_plan_mults lcm).length =
        (⌊PLL2_HIGH.toQ / lcm.toQ⌋ + 1 - ⌈PLL2_LOW.toQ / lcm.toQ⌉).toNat := by
      unfold pll2_plan_mults
      rw [hc, hfl, intRange_length]
    rw [hlen]
    have hl20 : 1 / 20 ≤ lcm.toQ := hS ▸ hsm
    have hdivle : PLL2_HIGH.toQ / lcm.toQ - PLL2_LOW.toQ / lcm.toQ ≤ 21400 := by
      rw [hL, hH, div_sub_div_same, show (6410 : ℚ) - 5340 = 1070 from by norm_num,
        div_le_iff hl0]
      linarith
    have hkey : ⌊PLL2_HIGH.toQ / lcm.toQ⌋ - ⌈PLL2_LOW.toQ / lcm.toQ⌉ ≤ 21400 := by
      have ha := Int.floor_le (PLL2_HIGH.toQ / lcm.toQ)
      have hb := Int.le_ceil (PLL2_LOW.toQ / lcm.toQ)
      have hcast : ((⌊PLL2_HIGH.toQ / lcm.toQ⌋ - ⌈PLL2_LOW.toQ / lcm.toQ⌉ : Int) : ℚ)
          ≤ 21400 := by
        push_cast
        linarith
      exact_mod_cast hcast
    have hmhr : (2 * MAX_HALF_RANGE + 1).toNat = 21401 := by decide
    rw [hmhr]
    omega

theorem claim_C6_unclamped_counterexample :
    (2 * MAX_HALF_RANGE + 1).toNat < (pll2_plan_mults (fracMk 1 40)).length := by
  have h : (pll2_plan_mults (fracMk 1 40)).length = 42801 := by
    unfold pll2_plan_mults
    rw [intRange_length]
    decide
  rw [h]
  decide

theorem claim_C6_pll2_candidate_window_witness :
    (fracMk 1 20).Wf ∧ 0 < (fracMk 1 20).num ∧
      ((∀ fq ∈ pll2_plan_candidates (fracMk 1 20),
          ∃ m ∈ pll2_plan_mults (fracMk 1 20), fq = (Frac.ofInt m).mul (fracMk 1 20) ∧
            PLL2_LOW.toQ ≤ fq.toQ ∧ fq.toQ ≤ PLL2_HIGH.toQ) ∧
        (∀ m : Int, PLL2_LOW.toQ ≤ (m : ℚ) * (fracMk 1 20).toQ →
          (m : ℚ) * (fracMk 1 20).toQ ≤ PLL2_HIGH.toQ → m ∈ pll2_plan_mults (fracMk 1 20)) ∧
        (SMALL.toQ ≤ (fracMk 1 20).toQ →
          (pll2_plan_mults (fracMk 1 20)).length ≤ (2 * MAX_HALF_RANGE + 1).toNat)) :=
  ⟨by decide, by decide,
    claim_C6_pll2_candidate_window (fracMk 1 20) (by decide) (by decide)⟩

instance : IsTotal Config configLe :=
  ⟨fun a b => by unfold configLe; omega⟩

instance : IsTrans Config configLe :=
  ⟨fun a b c hab hbc => by unfold configLe at hab hbc ⊢; omega⟩

theorem active_header_eq (flash : Nat → Nat) (headers : List Config) :
    active_header flash headers =
      ((headers.filter fun h => h.is_valid).insertionSort configLe).reverse.find?
        (crcVerifies flash) := rfl

theorem sorted_rev_find_max (p : Config → Bool) :
    ∀ l : List Config, l.Sorted configLe →
      ∀ hstar, l.reverse.find? p = some hstar →
        ∀ h ∈ l, p h = true → configLe h hstar := by
  intro l
  induction l with
  | nil =>
    intro _ hstar hfind
    simp at hfind
  | cons a t ih =>
    intro hsort hstar hfind h hmem hp
    obtain ⟨ha, ht⟩ := List.sorted_cons.mp hsort
    rw [List.reverse_cons, List.find?_append] at hfind
    rcases hrt : t.reverse.find? p with _ | x
    · rw [hrt, Option.none_or] at hfind
      rcases hpa : p a with _ | _
      · rw [List.find?_cons_of_neg _ (by simp [hpa])] at hfind
        simp at hfind
      · rw [List.find?_cons_of_pos _ hpa] at hfind
        injection hfind with hfind
        subst hfind
        rcases List.mem_cons.mp hmem with rfl | hmt
        · unfold configLe
          omega
        · have hf := List.find?_eq_none.mp hrt h (List.mem_reverse.mpr hmt)
          rw [hp] at hf
          exact absurd rfl hf
    · rw [hrt] at hfind
      have hfind2 : some x = some hstar := hfind
      injection hfind2 with hfind2
      subst hfind2
      rcases List.mem_cons.mp hmem with rfl | hmt
      · exact ha x (List.mem_reverse.mp (List.mem_of_find?_eq_some hrt))
      · exact ih ht x hrt h hmt hp

/-- Claim C8 amended: active_header returns the greatest header in the
ascending (generation, address) order among the headers that pass
is_valid (magic and length; the version field is NOT examined by the
source) and whose full-length CRC-32 equals the verify magic, and none
exactly when no is_valid header verifies. -/
theorem claim_C8_active_header_greatest (flash : Nat → Nat) (headers : List Config) :
    (active_header flash headers = none ↔
      ∀ h ∈ headers, h.is_valid = true → crcVerifies flash h = false) ∧
    ∀ hstar, active_header flash headers = some hstar →
      hstar ∈ headers ∧ hstar.is_valid = true ∧ crcVerifies flash hstar = true ∧
        ∀ h ∈ headers, h.is_valid = true → crcVerifies flash h = true →
          configLe h hstar := by
  have hperm := List.perm_insertionSort configLe (headers.filter fun h => h.is_valid)
  have hmemL : ∀ x : Config,
      x ∈ (headers.filter fun h => h.is_valid).insertionSort configLe ↔
        x ∈ headers ∧ x.is_valid = true := by
    intro x
    rw [hperm.mem_iff, List.mem_filter]
  constructor
  · rw [active_header_eq, List.find?_eq_none]
    constructor
    · intro hnone h hmem hval
      have hf := hnone h (List.mem_reverse.mpr ((hmemL h).mpr ⟨hmem, hval⟩))
      simpa using hf
    · intro hall x hx
      have hx2 := (hmemL x).mp (List.mem_reverse.mp hx)
      simp [hall x hx2.1 hx2.2]
  · intro hstar hfind
    rw [active_header_eq] at hfind
    have hmem : hstar ∈ headers ∧ hstar.is_valid = true :=
      (hmemL hstar).mp (List.mem_reverse.mp (List.mem_of_find?_eq_some hfind))
    refine ⟨hmem.1, hmem.2, List.find?_some hfind, ?_⟩
    intro h hh hval hcrc
    exact sorted_rev_find_max (crcVerifies flash) _
      (List.sorted_insertionSort configLe _) hstar hfind h
      ((hmemL h).mpr ⟨hh, hval⟩) hcrc

/-- Counterexample to claim C8 as stated: headerDemo has version 7, so
it is invalid under the claimed validity that checks the version field,
yet active_header returns it, because the source is_valid checks only
the magic and the length. -/
theorem claim_C8_version_not_checked_counterexample :
    (∀ h ∈ [headerDemo], h.claim_valid = false) ∧
      active_header flashDemo [headerDemo] = some headerDemo := by decide

/-- Witness for the amended claim C8: over flashDemo with a verifying
version-7 header and a stale higher-generation header whose CRC fails,
active_header picks the verifying one and it is maximal. -/
theorem claim_C8_active_header_greatest_witness :
    active_header flashDemo [headerDemo, headerStale] = some headerDemo ∧
      (headerDemo ∈ [headerDemo, headerStale] ∧ headerDemo.is_valid = true ∧
        crcVerifies flashDemo headerDemo = true ∧
        ∀ h ∈ [headerDemo, headerStale], h.is_valid = true →
          crcVerifies flashDemo h = true → configLe h headerDemo) :=
  ⟨by decide,
    (claim_C8_active_header_greatest flashDemo [headerDemo, headerStale]).2 headerDemo
      (by decide)⟩

set_option maxRecDepth 10000 in
set_option maxHeartbeats 4000000 in
theorem tab_eq_tabL : ∀ i, i < 256 → crc32tab i = tabL i := by decide

set_option maxRecDepth 10000 in
set_option maxHeartbeats 4000000 in
theorem crc32tab_lt : ∀ i, i < 256 → crc32tab i < 2 ^ 32 := by decide

theorem xor_xor_swap (a b c d : Nat) : (a ^^^ b) ^^^ (c ^^^ d) = (a ^^^ c) ^^^ (b ^^^ d) := by
  apply Nat.eq_of_testBit_eq
  intro i
  simp only [Nat.testBit_xor]
  generalize a.testBit i = w
  generalize b.testBit i = x
  generalize c.testBit i = y
  generalize d.testBit i = z
  revert w x y z
  decide

theorem if_xor (x y : Bool) (c : Nat) :
    (if (x ^^ y) = true then c else 0) =
      (if x = true then c else 0) ^^^ (if y = true then c else 0) := by
  cases x <;> cases y <;> simp [Nat.xor_self, Nat.xor_zero, Nat.zero_xor]

theorem tabL_linear (a b : Nat) : tabL (a ^^^ b) = tabL a ^^^ tabL b := by
  unfold tabL
  generalize List.range 8 = l
  induction l with
  | nil => simp
  | cons j t ih =>
    simp only [List.map_cons, List.foldr_cons]
    rw [ih, Nat.testBit_xor, if_xor, xor_xor_swap]

theorem crc32tab_linear (a b : Nat) (ha : a < 256) (hb : b < 256) :
    crc32tab (a ^^^ b) = crc32tab a ^^^ crc32tab b := by
  have hab : a ^^^ b < 256 := Nat.xor_lt_two_pow (n := 8) ha hb
  rw [tab_eq_tabL _ hab, tab_eq_tabL a ha, tab_eq_tabL b hb, tabL_linear]

theorem shiftRight_xor_distrib (x y k : Nat) : (x ^^^ y) >>> k = x >>> k ^^^ y >>> k := by
  apply Nat.eq_of_testBit_eq
  intro i
  simp [Nat.testBit_xor, Nat.testBit_shiftRight]

theorem shiftLeft_xor_distrib (x y k : Nat) : (x ^^^ y) <<< k = x <<< k ^^^ y <<< k := by
  apply Nat.eq_of_testBit_eq
  intro i
  rw [Nat.testBit_xor, Nat.testBit_shiftLeft, Nat.testBit_shiftLeft, Nat.testBit_shiftLeft,
    Nat.testBit_xor]
  cases h : decide (i ≥ k) <;> simp

theorem shiftRight24_lt (s : Nat) (hs : s < 2 ^ 32) : s >>> 24 < 256 := by
  rw [Nat.shiftRight_eq_div_pow]
  omega

theorem crc32step_lt (s b : Nat) (hs : s < 2 ^ 32) (hb : b < 256) :
    crc32step s b < 2 ^ 32 := by
  unfold crc32step
  have h1 : s <<< 8 &&& 0xffffff00 ≤ 0xffffff00 := Nat.and_le_right
  have h2 : s >>> 24 ^^^ b < 256 :=
    Nat.xor_lt_two_pow (n := 8) (shiftRight24_lt s hs) hb
  have h3 : crc32tab (s >>> 24 ^^^ b) < 2 ^ 32 := crc32tab_lt _ h2
  exact Nat.xor_lt_two_pow (by omega) h3

theorem crc32step_linear (s s' b b' : Nat) (hs : s < 2 ^ 32) (hs' : s' < 2 ^ 32)
    (hb : b < 256) (hb' : b' < 256) :
    crc32step (s ^^^ s') (b ^^^ b') = crc32step s b ^^^ crc32step s' b' := by
  unfold crc32step
  have hidx : (s ^^^ s') >>> 24 ^^^ (b ^^^ b') = (s >>> 24 ^^^ b) ^^^ (s' >>> 24 ^^^ b') := by
    rw [shiftRight_xor_distrib, xor_xor_swap]
  rw [hidx, crc32tab_linear _ _ (Nat.xor_lt_two_pow (n := 8) (shiftRight24_lt s hs) hb)
    (Nat.xor_lt_two_pow (n := 8) (shiftRight24_lt s' hs') hb')]
  rw [shiftLeft_xor_distrib, Nat.and_xor_distrib_right, xor_xor_swap]

theorem byte_xor_distrib (x y k : Nat) :
    (x ^^^ y) >>> k &&& 255 = (x >>> k &&& 255) ^^^ (y >>> k &&& 255) := by
  rw [shiftRight_xor_distrib, Nat.and_xor_distrib_right]

theorem byte_and_lt (x : Nat) : x &&& 255 < 256 := by
  have := Nat.and_le_right (n := x) (m := 255)
  omega

theorem crc32feed4_linear (s s' x y : Nat) (hs : s < 2 ^ 32) (hs' : s' < 2 ^ 32) :
    crc32feed4 (s ^^^ s') (x ^^^ y) = crc32feed4 s x ^^^ crc32feed4 s' y := by
  unfold crc32feed4
  rw [byte_xor_distrib x y 24,
    crc32step_linear _ _ _ _ hs hs' (byte_and_lt _) (byte_and_lt _)]
  rw [byte_xor_distrib x y 16,
    crc32step_linear _ _ _ _
      (crc32step_lt _ _ hs (byte_and_lt _)) (crc32step_lt _ _ hs' (byte_and_lt _))
      (byte_and_lt _) (byte_and_lt _)]
  rw [byte_xor_distrib x y 8,
    crc32step_linear _ _ _ _
      (crc32step_lt _ _ (crc32step_lt _ _ hs (byte_and_lt _)) (byte_and_lt _))
      (crc32step_lt _ _ (crc32step_lt _ _ hs' (byte_and_lt _)) (byte_and_lt _))
      (byte_and_lt _) (byte_and_lt _)]
  have hx3 : (x ^^^ y) &&& 255 = (x &&& 255) ^^^ (y &&& 255) := Nat.and_xor_distrib_right
  rw [hx3,
    crc32step_linear _ _ _ _
      (crc32step_lt _ _ (crc32step_lt _ _ (crc32step_lt _ _ hs (byte_and_lt _))
        (byte_and_lt _)) (byte_and_lt _))
      (crc32step_lt _ _ (crc32step_lt _ _ (crc32step_lt _ _ hs' (byte_and_lt _))
        (byte_and_lt _)) (byte_and_lt _))
      (byte_and_lt _) (byte_and_lt _)]

set_option maxRecDepth 10000 in
theorem feed4_diag_basis : ∀ j, j < 32 → crc32feed4 (2 ^ j) (2 ^ j) = 0 := by decide

theorem feed4_diag_zero (S : Nat) : S < 2 ^ 32 → crc32feed4 S S = 0 := by
  induction S using Nat.strong_induction_on with
  | _ S ih =>
    intro hS
    by_cases h0 : S = 0
    · subst h0
      decide
    · have hle : 2 ^ S.log2 ≤ S := Nat.log2_self_le h0
      have hlt : S < 2 ^ (S.log2 + 1) := Nat.lt_log2_self
      have hj32 : S.log2 < 32 := by
        by_contra hge
        push_neg at hge
        have h2 : (2 : Nat) ^ 32 ≤ 2 ^ S.log2 := Nat.pow_le_pow_right (by norm_num) hge
        omega
      have hbitj : S.testBit S.log2 = true := by
        rw [Nat.testBit_to_div_mod]
        have hdiv : S / 2 ^ S.log2 = 1 := Nat.div_eq_of_lt_le (by omega) (by omega)
        rw [hdiv]
        decide
      have hmb : ∀ b, S.log2 ≤ b → (S ^^^ 2 ^ S.log2).testBit b = false := by
        intro b hb
        rcases eq_or_lt_of_le hb with rfl | hbgt
        · rw [Nat.testBit_xor, hbitj, Nat.testBit_two_pow]
          simp
        · rw [Nat.testBit_xor, Nat.testBit_two_pow,
            Nat.testBit_eq_false_of_lt
              (lt_of_lt_of_le hlt (Nat.pow_le_pow_right (by norm_num) hbgt))]
          simp
          omega
      have hmlt : S ^^^ 2 ^ S.log2 < 2 ^ S.log2 := by
        refine Nat.lt_of_testBit S.log2 (hmb _ le_rfl) (by simp [Nat.testBit_two_pow]) ?_
        intro b hbgt
        rw [hmb b (le_of_lt hbgt), Nat.testBit_two_pow]
        simp
        omega
      have hSm : S = 2 ^ S.log2 ^^^ (S ^^^ 2 ^ S.log2) := by
        calc S = 0 ^^^ S := (Nat.zero_xor S).symm
          _ = (2 ^ S.log2 ^^^ 2 ^ S.log2) ^^^ S := by rw [Nat.xor_self]
          _ = 2 ^ S.log2 ^^^ (2 ^ S.log2 ^^^ S) := Nat.xor_assoc _ _ _
          _ = 2 ^ S.log2 ^^^ (S ^^^ 2 ^ S.log2) := by rw [Nat.xor_comm S]
      have hmS : S ^^^ 2 ^ S.log2 < S := by omega
      have hrec : crc32feed4 (S ^^^ 2 ^ S.log2) (S ^^^ 2 ^ S.log2) = 0 :=
        ih _ hmS (by omega)
      have h2j : (2 : Nat) ^ S.log2 < 2 ^ 32 :=
        Nat.pow_lt_pow_right (by norm_num) hj32
      calc crc32feed4 S S
          = crc32feed4 (2 ^ S.log2 ^^^ (S ^^^ 2 ^ S.log2))
              (2 ^ S.log2 ^^^ (S ^^^ 2 ^ S.log2)) := by rw [← hSm]
        _ = crc32feed4 (2 ^ S.log2) (2 ^ S.log2) ^^^
              crc32feed4 (S ^^^ 2 ^ S.log2) (S ^^^ 2 ^ S.log2) :=
            crc32feed4_linear _ _ _ _ h2j (by omega)
        _ = 0 := by rw [feed4_diag_basis _ hj32, hrec, Nat.xor_self]

theorem foldl_crc32step_lt (d : List Nat) (hd : ∀ b ∈ d, b < 256) :
    ∀ s, s < 2 ^ 32 → d.foldl crc32step s < 2 ^ 32 := by
  induction d with
  | nil =>
    intro s hs
    simpa using hs
  | cons a t ih =>
    intro s hs
    rw [List.foldl_cons]
    exact ih (fun b hb => hd b (List.mem_cons_of_mem a hb))
      _ (crc32step_lt s a hs (hd a (List.mem_cons_self a t)))

theorem crcFFAux_succ (n s : Nat) : crcFFAux (n + 1) s = crcFFAux n (crc32step s 255) := by
  show (if s ≤ 0xffffffff then crcFFAux n (crc32step s 255)
    else crcFFAux n (crc32step s 255)) = crcFFAux n (crc32step s 255)
  split <;> rfl

theorem crcFF_spec : ∀ (n : Nat) (s : Nat),
    List.foldl crc32step s (List.replicate n 255) = crcFFAux n s := by
  intro n
  induction n with
  | zero =>
    intro s
    rfl
  | succ n ih =>
    intro s
    rw [List.replicate_succ, List.foldl_cons, ih, crcFFAux_succ]

set_option maxRecDepth 100000 in
set_option maxHeartbeats 4000000 in
theorem crc32_ff_2048 : crc32 (List.replicate 2048 0xff) = 0xfe8baafc := by
  unfold crc32
  rw [crcFF_spec]
  decide

theorem crc32_self_append (d : List Nat) (hd : ∀ b ∈ d, b < 256) :
    crc32 (d ++ pack_be32 (crc32 d)) = VERIFY_MAGIC := by
  unfold crc32
  rw [List.foldl_append]
  have hS32 : d.foldl crc32step 0xffffffff < 2 ^ 32 :=
    foldl_crc32step_lt d hd 0xffffffff (by norm_num)
  rw [show ∀ x, List.foldl crc32step (d.foldl crc32step 0xffffffff) (pack_be32 x) =
      crc32feed4 (d.foldl crc32step 0xffffffff) x from fun x => rfl]
  have h1 : crc32feed4 (d.foldl crc32step 0xffffffff)
      (d.foldl crc32step 0xffffffff ^^^ 0xffffffff) =
      crc32feed4 (d.foldl crc32step 0xffffffff) (d.foldl crc32step 0xffffffff) ^^^
        crc32feed4 0 0xffffffff := by
    have h2 := crc32feed4_linear (d.foldl crc32step 0xffffffff) 0
      (d.foldl crc32step 0xffffffff) 0xffffffff hS32 (by norm_num)
    rw [Nat.xor_zero] at h2
    exact h2
  rw [h1, feed4_diag_zero _ hS32, Nat.zero_xor]
  decide

/-- Claim C9: the CRC primitives meet their pinned constants.  crc16 of
the ASCII digits one to nine is 0x31c3; crc32 of 2048 bytes of 0xff is
0xfe8baafc; and for every byte string d, crc32 of d followed by the
big-endian encoding of crc32(d) is the verify magic 0x38fb2284. -/
theorem claim_C9_crc_pinned_constants :
    crc16 [49, 50, 51, 52, 53, 54, 55, 56, 57] = 0x31c3 ∧
      crc32 (List.replicate 2048 0xff) = 0xfe8baafc ∧
      ∀ d : List Nat, (∀ b ∈ d, b < 256) →
        crc32 (d ++ pack_be32 (crc32 d)) = VERIFY_MAGIC :=
  ⟨by decide, crc32_ff_2048, crc32_self_append⟩

/-- Witness for claim C9 at the two-byte string 0x12 0x34. -/
theorem claim_C9_crc_pinned_constants_witness :
    (∀ b ∈ [18, 52], (b : Nat) < 256) ∧
      crc32 ([18, 52] ++ pack_be32 (crc32 [18, 52])) = VERIFY_MAGIC :=
  ⟨by decide, claim_C9_crc_pinned_constants.2.2 [18, 52] (by decide)⟩
